import Mathlib

/-!
Verification development for the `pydl` transactional table store
(`pydl.py`).  The Python source is shallowly embedded: the JSON envelope
becomes an inductive `Json` value, Python dicts become insertion-ordered
association lists, the mutable per-transaction row buffers become cells of
an explicit heap (so the aliasing behaviour of `ScanIterator` is modelled
faithfully), and each `Client` method becomes a pure state-passing
function returning the final state together with an optional raised error.
The uuid generator and possible store I/O faults are supplied as oracles
inside the shared state.
-/

namespace Pydl

/-- JSON-compatible values, the serialization envelope of the system. -/
inductive Json where
  | str : String → Json
  | int : Int → Json
  | arr : List Json → Json
  | obj : List (String × Json) → Json

/-- Python dict lookup on an insertion-ordered association list. -/
def alookup {α : Type} : List (String × α) → String → Option α
  | [], _ => none
  | (k, v) :: rest, key => if k = key then some v else alookup rest key

/-- Python dict assignment `m[key] = v`: replaces in place or appends. -/
def aset {α : Type} : List (String × α) → String → α → List (String × α)
  | [], key, v => [(key, v)]
  | (k, w) :: rest, key, v =>
    if k = key then (k, v) :: rest else (k, w) :: aset rest key v

/-- Python `m.setdefault(key, []).append(x)`. -/
def appendEntry {α : Type} (m : List (String × List α)) (key : String) (x : α) :
    List (String × List α) :=
  match alookup m key with
  | some l => aset m key (l ++ [x])
  | none => m ++ [(key, [x])]

/-- Boolean prefix test on character lists. -/
def charsStartWith : List Char → List Char → Bool
  | [], _ => true
  | _ :: _, [] => false
  | a :: as, b :: bs => a == b && charsStartWith as bs

/-- The `name.startswith(p)` test used on blob names. -/
def strStartsWith (s p : String) : Bool := charsStartWith p.toList s.toList

/-- Insert a string into a sorted list (auxiliary for `sortStrings`). -/
def insertSorted (s : String) : List String → List String
  | [] => [s]
  | t :: rest => if s ≤ t then s :: t :: rest else t :: insertSorted s rest

/-- Lexicographic sort of names, the `tx_log_filenames.sort()` call. -/
def sortStrings : List String → List String
  | [] => []
  | s :: rest => insertSorted s (sortStrings rest)

/-- Zero-padding of a log id to 20 digits, Python `f"{id:020d}"`. -/
def pad20 (n : Nat) : String :=
  let s := toString n
  String.mk (List.replicate (20 - s.length) '0') ++ s

/-- Errors raised by the store or the client (the Python exceptions). -/
inductive Err where
  | existingTransaction
  | noTransaction
  | tableExists
  | noSuchTable
  | concurrentCommit
  | alreadyExists (name : String)
  | storeOther (msg : String)
  | notFound (name : String)
  | badData (msg : String)
deriving DecidableEq

/-- `DataobjectAction` of the source. -/
structure DataobjectAction where
  name : String
  table : String
deriving DecidableEq

/-- `ChangeMetadataAction` of the source. -/
structure ChangeMetadataAction where
  table : String
  columns : List String
deriving DecidableEq

/-- `Action` of the source: an object holding two optional sub-actions. -/
structure Action where
  add_dataobject : Option DataobjectAction := none
  change_metadata : Option ChangeMetadataAction := none
deriving DecidableEq

/-- `DataObject` of the source. -/
structure DataObject where
  table : String
  name : String
  data : List Json
  length : Nat

def DataobjectAction.to_dict (a : DataobjectAction) : Json :=
  .obj [("AddDataobject", .obj [("Name", .str a.name), ("Table", .str a.table)])]

def ChangeMetadataAction.to_dict (a : ChangeMetadataAction) : Json :=
  .obj [("ChangeMetadata",
    .obj [("Table", .str a.table), ("Columns", .arr (a.columns.map .str))])]

def Action.to_dict (a : Action) : Json :=
  match a.add_dataobject with
  | some d => d.to_dict
  | none =>
    match a.change_metadata with
    | some c => c.to_dict
    | none => .obj []

def DataObject.to_dict (d : DataObject) : Json :=
  .obj [("Table", .str d.table), ("Name", .str d.name),
        ("Data", .arr d.data), ("Len", .int d.length)]

/-- `Transaction` of the source.  `unflushed_data` maps a table to a heap
cell holding its mutable row buffer. -/
structure Transaction where
  id : Nat
  previous_actions : List (String × List Action)
  actions : List (String × List Action)
  tables : List (String × List String)
  unflushed_data : List (String × Nat)

def emptyTx : Transaction := ⟨0, [], [], [], []⟩

/-- Shared world: the object store's blobs (in creation order), the heap of
mutable row buffers, the uuid supply, and a fault oracle mapping blob names
to the message of a non-`AlreadyExists` store error raised when writing
that name. -/
structure Shared where
  blobs : List (String × Json)
  heap : List (List Json)
  uuids : List String
  faults : List (String × String)

def blobNames (sh : Shared) : List String := sh.blobs.map Prod.fst

def heapGet (sh : Shared) (ref : Nat) : List Json := sh.heap.getD ref []

/-- `FileObjectStorage.put_if_absent`: fails with `AlreadyExists` when the
name is taken, with an oracle-chosen other store error when the fault
oracle names the blob, and otherwise appends the blob. -/
def put_if_absent (sh : Shared) (name : String) (v : Json) :
    Option Err × Shared :=
  if (alookup sh.blobs name).isSome then (some (.alreadyExists name), sh)
  else
    match alookup sh.faults name with
    | some m => (some (.storeOther m), sh)
    | none => (none, { sh with blobs := sh.blobs ++ [(name, v)] })

/-- `ObjectStorage.list_prefix` followed by nothing: names matching the
given prefix string, in store order. -/
def list_blobs (sh : Shared) (pre : String) : List String :=
  (sh.blobs.map Prod.fst).filter (fun n => strStartsWith n pre)

/-- `ObjectStorage.read`, as a partial lookup. -/
def readBlob (sh : Shared) (name : String) : Option Json :=
  alookup sh.blobs name

/-- Pop the next uuid from the oracle supply. -/
def takeUuid (sh : Shared) : String × Shared :=
  match sh.uuids with
  | [] => ("", sh)
  | u :: rest => (u, { sh with uuids := rest })

/-- Field access `j[k]` on a decoded JSON document. -/
def jGet (j : Json) (k : String) : Option Json :=
  match j with
  | .obj kvs => alookup kvs k
  | _ => none

/-- Python `k in j` membership test on a decoded document. -/
def jHas (j : Json) (k : String) : Bool := (jGet j k).isSome

/-- Interpretation of a JSON value as a list of strings (the shape the
`Columns` field of a `ChangeMetadata` document must have). -/
def strListOf : List Json → Option (List String)
  | [] => some []
  | .str s :: rest => (strListOf rest).map (fun l => s :: l)
  | _ => none

def asStrList (j : Json) : Option (List String) :=
  match j with
  | .arr l => strListOf l
  | _ => none

/-- Reading the `Name` and `Table` fields of an `AddDataobject` document. -/
def decodeAdd (j : Json) : Option (String × String) :=
  (jGet j "AddDataobject").bind (fun ada =>
    match jGet ada "Name", jGet ada "Table" with
    | some (.str n), some (.str t) => some (n, t)
    | _, _ => none)

/-- Reading the `Table` and `Columns` fields of a `ChangeMetadata`
document. -/
def decodeChange (j : Json) : Option (String × List String) :=
  (jGet j "ChangeMetadata").bind (fun cmd =>
    match jGet cmd "Table", (jGet cmd "Columns").bind asStrList with
    | some (.str t), some cols => some (t, cols)
    | _, _ => none)

/-- Replay of the action documents of one table of one log entry, the inner
loop of `Client.new_tx`.  `table` is the outer dict key; note that the
source updates `tx.tables[table]` (outer key) while the rebuilt
`ChangeMetadataAction` carries the inner `Table` field. -/
def replayActionList (table : String) (tx : Transaction) :
    List Json → Except Err Transaction
  | [] => .ok tx
  | j :: rest =>
    if jHas j "AddDataobject" then
      match decodeAdd j with
      | some (n, t) =>
        replayActionList table
          { tx with previous_actions :=
              appendEntry tx.previous_actions table ⟨some ⟨n, t⟩, none⟩ } rest
      | none => .error (.badData "AddDataobject")
    else if jHas j "ChangeMetadata" then
      match decodeChange j with
      | some (t, cols) =>
        replayActionList table
          { tx with tables := aset tx.tables table cols,
                    previous_actions :=
              appendEntry tx.previous_actions table ⟨none, some ⟨t, cols⟩⟩ } rest
      | none => .error (.badData "ChangeMetadata")
    else .error (.badData "Unsupported action")

/-- Replay of the `Actions` mapping of one decoded log entry. -/
def replayTables (tx : Transaction) :
    List (String × Json) → Except Err Transaction
  | [] => .ok tx
  | (table, v) :: rest =>
    match v with
    | .arr l =>
      match replayActionList table tx l with
      | .ok tx' => replayTables tx' rest
      | .error e => .error e
    | _ => .error (.badData "Actions entry")

/-- Replay of one whole log entry document into the transaction. -/
def replayLogEntry (j : Json) (tx : Transaction) : Except Err Transaction :=
  match jGet j "Actions" with
  | some (.obj items) => replayTables tx items
  | _ => .error (.badData "Actions")

/-- The log-reading loop of `Client.new_tx`: reads each named log blob in
order, tracks the maximum observed id and folds the actions into the fresh
transaction. -/
def replayLogs (sh : Shared) :
    List String → Nat → Transaction → Except Err (Nat × Transaction)
  | [], maxId, tx => .ok (maxId, tx)
  | name :: rest, maxId, tx =>
    match readBlob sh name with
    | none => .error (.notFound name)
    | some j =>
      match jGet j "Id" with
      | some (.int i) =>
        match replayLogEntry j tx with
        | .ok tx' => replayLogs sh rest (max maxId i.toNat) tx'
        | .error e => .error e
      | _ => .error (.badData "Id")

/-- `Client.new_tx`. -/
def new_tx (sh : Shared) (otx : Option Transaction) :
    Option Err × Shared × Option Transaction :=
  match otx with
  | some _ => (some .existingTransaction, sh, otx)
  | none =>
    let names := sortStrings (list_blobs sh "_log_")
    match replayLogs sh names 0 emptyTx with
    | .error e => (some e, sh, none)
    | .ok (maxId, tx) => (none, sh, some { tx with id := maxId + 1 })

/-- `Client.create_table`. -/
def create_table (sh : Shared) (otx : Option Transaction)
    (table : String) (columns : List String) :
    Option Err × Shared × Option Transaction :=
  match otx with
  | none => (some .noTransaction, sh, none)
  | some tx =>
    if (alookup tx.tables table).isSome then (some .tableExists, sh, some tx)
    else
      (none, sh, some { tx with
        tables := tx.tables ++ [(table, columns)],
        actions := appendEntry tx.actions table ⟨none, some ⟨table, columns⟩⟩ })

/-- Core of `Client.flush_rows`, on an open transaction. -/
def flushCore (sh : Shared) (tx : Transaction) (table : String) :
    Option Err × Shared × Transaction :=
  match alookup tx.unflushed_data table with
  | none => (none, sh, tx)
  | some ref =>
    let data := heapGet sh ref
    if data.isEmpty then (none, sh, tx)
    else
      let p := takeUuid sh
      let dobj : DataObject := ⟨table, p.1, data, data.length⟩
      let filename := "_table_" ++ table ++ "_" ++ p.1
      match put_if_absent p.2 filename dobj.to_dict with
      | (some e, sh2) => (some e, sh2, tx)
      | (none, sh2) =>
        (none, { sh2 with heap := sh2.heap ++ [[]] },
         { tx with
           actions := appendEntry tx.actions table ⟨some ⟨p.1, table⟩, none⟩,
           unflushed_data := aset tx.unflushed_data table sh2.heap.length })

/-- `Client.flush_rows`. -/
def flush_rows (sh : Shared) (otx : Option Transaction) (table : String) :
    Option Err × Shared × Option Transaction :=
  match otx with
  | none => (some .noTransaction, sh, none)
  | some tx =>
    match flushCore sh tx table with
    | (e, sh', tx') => (e, sh', some tx')

/-- `Client.write_row`.  `size` is the `DATAOBJECT_SIZE` threshold. -/
def write_row (size : Nat) (sh : Shared) (otx : Option Transaction)
    (table : String) (row : Json) :
    Option Err × Shared × Option Transaction :=
  match otx with
  | none => (some .noTransaction, sh, none)
  | some tx =>
    if (alookup tx.tables table).isNone then (some .noSuchTable, sh, some tx)
    else
      match alookup tx.unflushed_data table with
      | some ref =>
        let buf := heapGet sh ref
        let sh' := { sh with heap := sh.heap.set ref (buf ++ [row]) }
        if size ≤ buf.length + 1 then flush_rows sh' (some tx) table
        else (none, sh', some tx)
      | none =>
        let sh' := { sh with heap := sh.heap ++ [[row]] }
        let tx' := { tx with
          unflushed_data := tx.unflushed_data ++ [(table, sh.heap.length)] }
        if size ≤ 1 then flush_rows sh' (some tx') table
        else (none, sh', some tx')

/-- The flush loop of `Client.commit_tx`: flush every table of the
transaction, in table-dict order, stopping at the first error. -/
def flushAll (sh : Shared) (tx : Transaction) :
    List String → Option Err × Shared × Transaction
  | [] => (none, sh, tx)
  | t :: rest =>
    match flushCore sh tx t with
    | (some e, sh', tx') => (some e, sh', tx')
    | (none, sh', tx') => flushAll sh' tx' rest

/-- The log entry document built by `Client.commit_tx`. -/
def encodeLogEntry (tx : Transaction) : Json :=
  .obj [("Id", .int tx.id),
        ("Actions", .obj (tx.actions.map
          (fun p => (p.1, .arr (p.2.map Action.to_dict)))))]

def logName (id : Nat) : String := "_log_" ++ pad20 id

/-- `Client.commit_tx`. -/
def commit_tx (sh : Shared) (otx : Option Transaction) :
    Option Err × Shared × Option Transaction :=
  match otx with
  | none => (some .noTransaction, sh, none)
  | some tx =>
    match flushAll sh tx (tx.tables.map Prod.fst) with
    | (some e, sh', tx') => (some e, sh', some tx')
    | (none, sh', tx') =>
      if tx'.actions.all (fun p => p.2.isEmpty) then (none, sh', none)
      else
        match put_if_absent sh' (logName tx'.id) (encodeLogEntry tx') with
        | (none, sh2) => (none, sh2, none)
        | (some (.alreadyExists _), sh2) => (some .concurrentCommit, sh2, none)
        | (some e, sh2) => (some e, sh2, some tx')

/-- `ScanIterator` of the source.  `unflushed_ref` is the heap cell the
cursor aliases (`self.unflushed_rows`). -/
structure ScanIterator where
  table : String
  unflushed_ref : Nat
  unflushed_row_pointer : Nat
  dataobjects : List String
  dataobjects_pointer : Nat
  dataobject : Option DataObject
  dataobject_row_pointer : Nat

/-- `Client.scan`.  When the table has no buffer yet, Python's
`dict.get(table, [])` hands the cursor a fresh empty list that is *not*
installed in `unflushed_data`; the model allocates a fresh heap cell for
it. -/
def scan (sh : Shared) (otx : Option Transaction) (table : String) :
    Option Err × Shared × Option ScanIterator :=
  match otx with
  | none => (some .noTransaction, sh, none)
  | some tx =>
    let all_actions := (alookup tx.previous_actions table).getD [] ++
      (alookup tx.actions table).getD []
    let dataobjects := all_actions.filterMap (fun a =>
      a.add_dataobject.map (fun d => d.name))
    match alookup tx.unflushed_data table with
    | some ref => (none, sh, some ⟨table, ref, 0, dataobjects, 0, none, 0⟩)
    | none =>
      (none, { sh with heap := sh.heap ++ [[]] },
       some ⟨table, sh.heap.length, 0, dataobjects, 0, none, 0⟩)

/-- Decoding a data object blob, from `ScanIterator.__next__`. -/
def decodeDataObject (j : Json) : Option DataObject :=
  match jGet j "Table", jGet j "Name", jGet j "Data", jGet j "Len" with
  | some (.str t), some (.str n), some (.arr d), some (.int l) =>
    if l < 0 then none else some ⟨t, n, d, l.toNat⟩
  | _, _, _, _ => none

/-- Result of one `__next__` call: a row, `StopIteration`, or an error. -/
inductive NextRes where
  | row (r : Json)
  | stop
  | err (e : Err)

/-- True when `__next__` must load a new data object: the current one is
absent or exhausted (`dataobject_row_pointer` has reached its `Len`). -/
def needLoad (it : ScanIterator) : Bool :=
  match it.dataobject with
  | none => true
  | some d => decide (d.length ≤ it.dataobject_row_pointer)

/-- The data-object loading loop inside `ScanIterator.__next__`.  Each
iteration either stops, fails, yields the next row, or consumes one data
object name; the fuel is at least the number of unread names plus one, so
it never runs out. -/
def nextLoop (sh : Shared) : Nat → ScanIterator → NextRes × ScanIterator
  | 0, it => (.stop, it)
  | fuel + 1, it =>
    if needLoad it then
      match it.dataobjects.get? it.dataobjects_pointer with
      | none => (.stop, it)
      | some name =>
        match readBlob sh ("_table_" ++ it.table ++ "_" ++ name) with
        | none => (.err (.notFound name), it)
        | some j =>
          match decodeDataObject j with
          | none => (.err (.badData "dataobject"), it)
          | some d =>
            nextLoop sh fuel
              { it with dataobject := some d,
                        dataobjects_pointer := it.dataobjects_pointer + 1,
                        dataobject_row_pointer := 0 }
    else
      match it.dataobject with
      | none => (.stop, it)
      | some d =>
        match d.data.get? it.dataobject_row_pointer with
        | some r =>
          (.row r,
           { it with dataobject_row_pointer := it.dataobject_row_pointer + 1 })
        | none => (.err (.badData "row index"), it)

/-- `ScanIterator.__next__`. -/
def ScanIterator.next (sh : Shared) (it : ScanIterator) :
    NextRes × ScanIterator :=
  let unflushed := heapGet sh it.unflushed_ref
  if it.unflushed_row_pointer < unflushed.length then
    (.row (unflushed.getD it.unflushed_row_pointer (.int 0)),
     { it with unflushed_row_pointer := it.unflushed_row_pointer + 1 })
  else
    nextLoop sh (it.dataobjects.length - it.dataobjects_pointer + 1) it

/-- Exhaust a cursor: collect the rows yielded until the first
non-row result. -/
def drain (sh : Shared) : Nat → ScanIterator → List Json
  | 0, _ => []
  | fuel + 1, it =>
    match it.next sh with
    | (.row r, it') => r :: drain sh fuel it'
    | _ => []

/-- One client-level operation of the system, tagged with the index of the
client performing it. -/
inductive Op where
  | newTx (i : Nat)
  | createTable (i : Nat) (t : String) (cols : List String)
  | writeRow (i : Nat) (t : String) (r : Json)
  | flushOp (i : Nat) (t : String)
  | commitOp (i : Nat)
  | scanOp (i : Nat) (t : String)

/-- A system of clients over one shared store. -/
structure SysState where
  sh : Shared
  clients : List (Option Transaction)

/-- Apply one operation; out-of-range client indices are no-ops, and raised
errors leave the state exactly as the operation left it. -/
def applyOp (size : Nat) (s : SysState) (o : Op) : SysState :=
  match o with
  | .newTx i =>
    match s.clients.get? i with
    | none => s
    | some otx =>
      match new_tx s.sh otx with
      | (_, sh', otx') => ⟨sh', s.clients.set i otx'⟩
  | .createTable i t cols =>
    match s.clients.get? i with
    | none => s
    | some otx =>
      match create_table s.sh otx t cols with
      | (_, sh', otx') => ⟨sh', s.clients.set i otx'⟩
  | .writeRow i t r =>
    match s.clients.get? i with
    | none => s
    | some otx =>
      match write_row size s.sh otx t r with
      | (_, sh', otx') => ⟨sh', s.clients.set i otx'⟩
  | .flushOp i t =>
    match s.clients.get? i with
    | none => s
    | some otx =>
      match flush_rows s.sh otx t with
      | (_, sh', otx') => ⟨sh', s.clients.set i otx'⟩
  | .commitOp i =>
    match s.clients.get? i with
    | none => s
    | some otx =>
      match commit_tx s.sh otx with
      | (_, sh', otx') => ⟨sh', s.clients.set i otx'⟩
  | .scanOp i t =>
    match s.clients.get? i with
    | none => s
    | some otx =>
      match scan s.sh otx t with
      | (_, sh', _) => ⟨sh', s.clients⟩

/-- Run a sequence of operations from a starting system state. -/
def runOps (size : Nat) (s : SysState) : List Op → SysState
  | [] => s
  | o :: rest => runOps size (applyOp size s o) rest

/-- Initial system: empty store and heap, `n` clients with no open
transaction, arbitrary uuid supply and fault oracle. -/
def initSys (uuids : List String) (faults : List (String × String))
    (n : Nat) : SysState :=
  ⟨⟨[], [], uuids, faults⟩, List.replicate n none⟩

/-- A transaction holds at least one recorded local action. -/
def nonemptyActions (tx : Transaction) : Prop :=
  ∃ k l, alookup tx.actions k = some l ∧ l ≠ []

/-- Concrete store for exercising a flush whose data-object write
collides: the uuid the oracle will hand out is already taken. -/
def w10sh : Shared := ⟨[("_table_t_u", Json.obj [])], [[Json.int 1]], ["u"], []⟩

/-- Concrete open transaction with one buffered row for table `t`. -/
def w10tx : Transaction := ⟨1, [], [], [("t", ["a"])], [("t", 0)]⟩

/-- Concrete transaction with a recorded action and no tables, so the
commit-time flush loop is trivial. -/
def w1tx : Transaction := ⟨1, [], [("x", [⟨some ⟨"u", "x"⟩, none⟩])], [], []⟩

/-- Concrete store in which the log name for id 1 is already taken. -/
def w1ash : Shared := ⟨[("_log_00000000000000000001", Json.obj [])], [], [], []⟩

/-- Concrete store whose fault oracle fails the log write for id 1 with a
non-collision store error. -/
def w1bsh : Shared := ⟨[], [], [], [("_log_00000000000000000001", "io")]⟩

/-- Concrete read-only transaction: one known table, nothing buffered,
no local actions. -/
def w5tx : Transaction := ⟨1, [], [], [("t", ["a"])], []⟩

/-- Concrete empty store. -/
def w5sh : Shared := ⟨[], [], [], []⟩

/-- The `DATAOBJECT_SIZE` constant of the source. -/
def DATAOBJECT_SIZE : Nat := 64 * 1024

/-- Concrete fresh transaction, as produced by `new_tx` on an empty
store. -/
def w4tx : Transaction := ⟨1, [], [], [], []⟩

/-- Concrete store holding one single-row buffer cell. -/
def w7sh : Shared := ⟨[], [[Json.int 1]], [], []⟩

/-- Concrete transaction in the state the client API produces after
`new_tx`, `create_table "t"` and one `write_row`: the `ChangeMetadata`
action is recorded under `t` and the buffer holds one row. -/
def w8tx : Transaction :=
  ⟨1, [], [("t", [⟨none, some ⟨"t", ["a"]⟩⟩])], [("t", ["a"])], [("t", 0)]⟩

/-- The flush-threshold scenario of the spec: one client creates a table
and writes ten rows with `DATAOBJECT_SIZE` lowered to 4, then commits. -/
def c7ops : List Op :=
  [Op.newTx 0, Op.createTable 0 "x" ["a", "b"]] ++
  ((List.range 10).map (fun k => Op.writeRow 0 "x" (.int k))) ++
  [Op.commitOp 0]

/-- Final state of the flush-threshold scenario. -/
def c7final : SysState := runOps 4 (initSys ["u1", "u2", "u3", "u4"] [] 1) c7ops

/-- An action carrying exactly one of the two variants, the only shape the
client ever records (the spec's intended sum type). -/
def wellFormedAction (a : Action) : Prop :=
  (a.add_dataobject.isSome ∧ a.change_metadata = none) ∨
  (a.add_dataobject = none ∧ a.change_metadata.isSome)

/-- Repeated `appendEntry` at one key, the shape the per-table replay loop
produces. -/
def foldAppend {α : Type} (m : List (String × List α)) (key : String) :
    List α → List (String × List α)
  | [] => m
  | a :: rest => foldAppend (appendEntry m key a) key rest

/-- Concrete transaction with one table and one action of each variant,
for exercising the log-entry round trip. -/
def w9tx : Transaction :=
  ⟨7, [], [("x", [⟨none, some ⟨"x", ["a", "b"]⟩⟩, ⟨some ⟨"u", "x"⟩, none⟩])],
   [], []⟩

/-- Concrete data object for exercising the data-object round trip. -/
def w9d : DataObject := ⟨"x", "u", [Json.int 1, Json.str "a"], 2⟩

/-- Checker: an action document carries one of the two known tags with
decodable fields, so its replay cannot fail. -/
def wfActionDoc (j : Json) : Bool :=
  if jHas j "AddDataobject" then (decodeAdd j).isSome
  else if jHas j "ChangeMetadata" then (decodeChange j).isSome
  else false

/-- Checker: a log entry document carries an integer `Id` and an `Actions`
mapping of arrays of well-formed action documents. -/
def wfLogJson (j : Json) : Bool :=
  (match jGet j "Id" with | some (.int _) => true | _ => false) &&
  (match jGet j "Actions" with
   | some (.obj items) =>
     items.all (fun p => match p.2 with
       | .arr l => l.all wfActionDoc
       | _ => false)
   | _ => false)

/-- The id recorded in a decoded log entry document. -/
def logIdOf (j : Json) : Nat :=
  match jGet j "Id" with
  | some (.int i) => i.toNat
  | _ => 0

/-- The id recorded in the blob of the given name. -/
def blobId (sh : Shared) (n : String) : Nat :=
  match readBlob sh n with
  | some j => logIdOf j
  | none => 0

/-- The maximum id observed among the store's log entries (0 when the log
is empty). -/
def maxLogId (sh : Shared) : Nat :=
  (sh.blobs.filter (fun p => strStartsWith p.1 "_log_")).foldl
    (fun a p => max a (logIdOf p.2)) 0

/-- Concrete store carrying two committed log entries, ids 2 and 1, listed
out of order. -/
def w6sh : Shared :=
  ⟨[("_log_00000000000000000002", Json.obj [("Id", Json.int 2),
      ("Actions", Json.obj [("x", Json.arr [Json.obj [("AddDataobject",
        Json.obj [("Name", Json.str "u"), ("Table", Json.str "x")])]])])]),
    ("_log_00000000000000000001", Json.obj [("Id", Json.int 1),
      ("Actions", Json.obj [("x", Json.arr [Json.obj [("ChangeMetadata",
        Json.obj [("Table", Json.str "x"),
                  ("Columns", Json.arr [Json.str "a"])])]])])])],
   [], [], []⟩

/-- Concrete system: one client with an open transaction and a created
table `y` on which no row has yet been written. -/
def c8sys : SysState :=
  runOps 65536 (initSys ["v1"] [] 1) [Op.newTx 0, Op.createTable 0 "y" ["a"]]

/-- A cursor over `y` opened before any `write_row` on `y`. -/
def c8scanRes : Option Err × Shared × Option ScanIterator :=
  scan c8sys.sh (c8sys.clients.getD 0 none) "y"

/-- A row written to `y` after the cursor above was created. -/
def c8write : Option Err × Shared × Option Transaction :=
  write_row 65536 c8scanRes.2.1 (c8sys.clients.getD 0 none) "y" (Json.int 7)

/-- The rows stored in the data object blob of the given name for the
given table (empty when the blob is absent or malformed). -/
def objRows (sh : Shared) (table name : String) : List Json :=
  match (readBlob sh ("_table_" ++ table ++ "_" ++ name)).bind
      decodeDataObject with
  | some d => d.data
  | none => []

/-- A data-object blob that exists, decodes, and whose `Len` field agrees
with its stored row count (the shape `flush_rows` writes). -/
def wfObj (sh : Shared) (table name : String) : Prop :=
  ∃ d, (readBlob sh ("_table_" ++ table ++ "_" ++ name)).bind
      decodeDataObject = some d ∧ d.length = d.data.length

/-- The rows a cursor still owes from its data objects: the rest of the
currently loaded object, then the rows of the not-yet-loaded objects. -/
def specObj (sh : Shared) (it : ScanIterator) : List Json :=
  (match it.dataobject with
   | some d => d.data.drop it.dataobject_row_pointer
   | none => []) ++
  (it.dataobjects.drop it.dataobjects_pointer).flatMap (objRows sh it.table)

/-- All rows a cursor still owes: the rest of the unflushed buffer, then
the data-object rows. -/
def specOf (sh : Shared) (it : ScanIterator) : List Json :=
  (heapGet sh it.unflushed_ref).drop it.unflushed_row_pointer ++ specObj sh it

/-- The cursor's data-object state is well-formed for the store. -/
def objsWf (sh : Shared) (it : ScanIterator) : Prop :=
  (∀ name ∈ it.dataobjects.drop it.dataobjects_pointer,
    wfObj sh it.table name) ∧
  (∀ d, it.dataobject = some d → d.length = d.data.length)

/-- The cursor fields `nextLoop` never touches. -/
def frameEq (it2 it : ScanIterator) : Prop :=
  it2.table = it.table ∧ it2.unflushed_ref = it.unflushed_ref ∧
  it2.unflushed_row_pointer = it.unflushed_row_pointer ∧
  it2.dataobjects = it.dataobjects

/-- Concrete store with one committed data object blob for table `t` and
one buffered row. -/
def w3sh : Shared :=
  ⟨[("_table_t_u", DataObject.to_dict ⟨"t", "u", [Json.int 10, Json.int 11], 2⟩)],
   [[Json.int 1]], [], []⟩

/-- Concrete transaction whose snapshot references the data object above
and whose buffer holds one row. -/
def w3tx : Transaction :=
  ⟨1, [("t", [⟨some ⟨"u", "t"⟩, none⟩])], [], [("t", ["a"])], [("t", 0)]⟩

/-- The cursor `scan` returns for `w3sh`, `w3tx`, table `t`. -/
def w3it : ScanIterator := ⟨"t", 0, 0, ["u"], 0, none, 0⟩

/-- The blob name an `AddDataobject` action document requires to exist:
`_table_<Table>_<Name>`. -/
def actionRefName (j : Json) : Option String :=
  match jGet j "AddDataobject" with
  | some ada =>
    match jGet ada "Name", jGet ada "Table" with
    | some (.str n), some (.str t) => some ("_table_" ++ t ++ "_" ++ n)
    | _, _ => none
  | none => none

/-- The data-object blob names referenced by a log entry document. -/
def logEntryRefs (j : Json) : List String :=
  match jGet j "Actions" with
  | some (.obj items) =>
    items.flatMap (fun p =>
      match p.2 with
      | .arr l => l.filterMap actionRefName
      | _ => [])
  | _ => []

/-- Store invariant: every data-object blob referenced by any committed
log entry exists in the store. -/
def StoreInv (sh : Shared) : Prop :=
  ∀ p ∈ sh.blobs, strStartsWith p.1 "_log_" = true →
    ∀ r ∈ logEntryRefs p.2, r ∈ blobNames sh

/-- Client invariant: every `AddDataobject` action recorded in the open
transaction refers to a blob that already exists. -/
def TxRefsOk (sh : Shared) (otx : Option Transaction) : Prop :=
  ∀ tx, otx = some tx → ∀ p ∈ tx.actions, ∀ a ∈ p.2, ∀ d,
    a.add_dataobject = some d →
    ("_table_" ++ d.table ++ "_" ++ d.name) ∈ blobNames sh

/-- Whole-system invariant: the store invariant plus the client invariant
for every client. -/
def SysInv (s : SysState) : Prop :=
  StoreInv s.sh ∧ ∀ otx ∈ s.clients, TxRefsOk s.sh otx

/-- A minimal committing run: create a table, write one row, commit. -/
def w2ops : List Op :=
  [Op.newTx 0, Op.createTable 0 "x" ["a"],
   Op.writeRow 0 "x" (.int 1), Op.commitOp 0]

/-- The log entry blob that the run `w2ops` commits. -/
def w2log : Json :=
  Json.obj [("Id", Json.int 1),
    ("Actions", Json.obj [("x", Json.arr
      [Json.obj [("ChangeMetadata", Json.obj [("Table", Json.str "x"),
         ("Columns", Json.arr [Json.str "a"])])],
       Json.obj [("AddDataobject", Json.obj [("Name", Json.str "u1"),
         ("Table", Json.str "x")])]])])]


section MapLemmas

theorem alookup_append {α : Type} (m m2 : List (String × α)) (k : String) :
    alookup (m ++ m2) k =
      match alookup m k with
      | some v => some v
      | none => alookup m2 k := by
  induction m with
  | nil => simp [alookup]
  | cons p rest ih =>
    by_cases h : p.1 = k <;> simp [alookup, h, ih]

theorem alookup_aset_self {α : Type} (m : List (String × α)) (k : String)
    (v : α) : alookup (aset m k v) k = some v := by
  induction m with
  | nil => simp [aset, alookup]
  | cons p rest ih =>
    by_cases h : p.1 = k <;> simp [aset, alookup, h, ih]

theorem alookup_aset_ne {α : Type} (m : List (String × α)) (k k0 : String)
    (v : α) (h : k0 ≠ k) : alookup (aset m k v) k0 = alookup m k0 := by
  induction m with
  | nil => simp [aset, alookup, Ne.symm h]
  | cons p rest ih =>
    by_cases hp : p.1 = k
    · have hpk0 : p.1 ≠ k0 := by rw [hp]; exact Ne.symm h
      simp [aset, hp, alookup, hpk0, Ne.symm h]
    · by_cases hp0 : p.1 = k0 <;> simp [aset, hp, alookup, hp0, ih, h]

theorem appendEntry_lookup_self {α : Type} (m : List (String × List α))
    (k : String) (x : α) :
    alookup (appendEntry m k x) k = some ((alookup m k).getD [] ++ [x]) := by
  unfold appendEntry
  cases h : alookup m k with
  | some l => simp [alookup_aset_self, h]
  | none => simp [alookup_append, h, alookup]

theorem appendEntry_lookup_ne {α : Type} (m : List (String × List α))
    (k k0 : String) (x : α) (h : k0 ≠ k) :
    alookup (appendEntry m k x) k0 = alookup m k0 := by
  unfold appendEntry
  cases hm : alookup m k with
  | some l => simp [alookup_aset_ne _ _ _ _ h]
  | none =>
    rw [alookup_append]
    cases h0 : alookup m k0 with
    | some l => simp
    | none => simp [alookup, Ne.symm h]

theorem mem_aset {α : Type} (m : List (String × α)) (k : String) (v : α)
    (p : String × α) (hp : p ∈ aset m k v) : p ∈ m ∨ p = (k, v) := by
  induction m with
  | nil => simp [aset] at hp; simp [hp]
  | cons q rest ih =>
    by_cases h : q.1 = k
    · simp [aset, h] at hp
      rcases hp with hp | hp
      · right; rw [hp, ← h]
      · left; simp [hp]
    · simp [aset, h] at hp
      rcases hp with hp | hp
      · left; simp [hp]
      · rcases ih hp with h' | h'
        · left; simp [h']
        · right; exact h'

theorem mem_appendEntry {α : Type} (m : List (String × List α)) (k : String)
    (x : α) (p : String × List α) (hp : p ∈ appendEntry m k x) :
    p ∈ m ∨ (p.1 = k ∧ p.2 = (alookup m k).getD [] ++ [x]) := by
  unfold appendEntry at hp
  cases hm : alookup m k with
  | some l =>
    rw [hm] at hp
    rcases mem_aset _ _ _ _ hp with h | h
    · left; exact h
    · right; rw [h]; simp [hm]
  | none =>
    rw [hm] at hp
    simp at hp
    rcases hp with h | h
    · left; exact h
    · right; rw [h]; simp [hm]

end MapLemmas

section StoreLemmas

theorem put_err_state (sh : Shared) (n : String) (v : Json) (e : Err)
    (h : (put_if_absent sh n v).1 = some e) : (put_if_absent sh n v).2 = sh := by
  unfold put_if_absent at h ⊢
  by_cases hb : (alookup sh.blobs n).isSome
  · simp [hb]
  · cases hf : alookup sh.faults n with
    | some m => simp [hb, hf]
    | none => simp [hb, hf] at h

theorem put_ok_state (sh : Shared) (n : String) (v : Json)
    (h : (put_if_absent sh n v).1 = none) :
    (put_if_absent sh n v).2 = { sh with blobs := sh.blobs ++ [(n, v)] } := by
  unfold put_if_absent at h ⊢
  by_cases hb : (alookup sh.blobs n).isSome
  · simp [hb] at h
  · cases hf : alookup sh.faults n with
    | some m => simp [hb, hf] at h
    | none => simp [hb, hf]

theorem put_blobs_extend (sh : Shared) (n : String) (v : Json) :
    ∃ ext, (put_if_absent sh n v).2.blobs = sh.blobs ++ ext := by
  unfold put_if_absent
  by_cases hb : (alookup sh.blobs n).isSome
  · exact ⟨[], by simp [hb]⟩
  · cases hf : alookup sh.faults n with
    | some m => exact ⟨[], by simp [hb, hf]⟩
    | none => exact ⟨[(n, v)], by simp [hb, hf]⟩

theorem takeUuid_blobs (sh : Shared) : (takeUuid sh).2.blobs = sh.blobs := by
  unfold takeUuid
  cases sh.uuids <;> rfl

theorem takeUuid_heap (sh : Shared) : (takeUuid sh).2.heap = sh.heap := by
  unfold takeUuid
  cases sh.uuids <;> rfl

theorem takeUuid_faults (sh : Shared) : (takeUuid sh).2.faults = sh.faults := by
  unfold takeUuid
  cases sh.uuids <;> rfl

theorem put_pair_err (sh : Shared) (n : String) (v : Json) (e : Err)
    (shp : Shared) (h : put_if_absent sh n v = (some e, shp)) : shp = sh := by
  have h2 := put_err_state sh n v e (by rw [h])
  rw [h] at h2
  exact h2

theorem put_pair_ok (sh : Shared) (n : String) (v : Json) (shp : Shared)
    (h : put_if_absent sh n v = (none, shp)) :
    shp = { sh with blobs := sh.blobs ++ [(n, v)] } := by
  have h2 := put_ok_state sh n v (by rw [h])
  rw [h] at h2
  exact h2

end StoreLemmas

section FlushLemmas

theorem alookup_mem {α : Type} (m : List (String × α)) (k : String) (v : α)
    (h : alookup m k = some v) : (k, v) ∈ m := by
  induction m with
  | nil => simp [alookup] at h
  | cons p rest ih =>
    by_cases hp : p.1 = k
    · simp [alookup, hp] at h
      have hkv : (k, v) = p := by rw [← hp, ← h]
      rw [hkv]
      exact List.mem_cons_self p rest
    · simp [alookup, hp] at h
      right
      exact ih h

theorem flushCore_none_cases (sh sh2 : Shared) (tx tx2 : Transaction)
    (t : String) (h : flushCore sh tx t = (none, sh2, tx2)) :
    (sh2 = sh ∧ tx2 = tx) ∨ nonemptyActions tx2 := by
  unfold flushCore at h
  cases href : alookup tx.unflushed_data t with
  | none =>
    rw [href] at h
    simp only [Prod.mk.injEq] at h
    exact Or.inl ⟨h.2.1.symm, h.2.2.symm⟩
  | some ref =>
    rw [href] at h
    by_cases hemp : (heapGet sh ref).isEmpty
    · simp only [hemp, if_true, Prod.mk.injEq] at h
      exact Or.inl ⟨h.2.1.symm, h.2.2.symm⟩
    · simp only [hemp, if_false, Bool.false_eq_true] at h
      cases hput : (put_if_absent (takeUuid sh).2
          ("_table_" ++ t ++ "_" ++ (takeUuid sh).1)
          (DataObject.to_dict
            ⟨t, (takeUuid sh).1, heapGet sh ref, (heapGet sh ref).length⟩)) with
      | mk e1 shp =>
        rw [hput] at h
        cases e1 with
        | some e => simp at h
        | none =>
          simp only [Prod.mk.injEq] at h
          refine Or.inr ⟨t, (alookup tx.actions t).getD [] ++
            [⟨some ⟨(takeUuid sh).1, t⟩, none⟩], ?_, by simp⟩
          rw [← h.2.2, appendEntry_lookup_self]

theorem flushCore_tx_cases (sh sh2 : Shared) (tx tx2 : Transaction)
    (t : String) (e : Option Err) (h : flushCore sh tx t = (e, sh2, tx2)) :
    tx2 = tx ∨ nonemptyActions tx2 := by
  unfold flushCore at h
  cases href : alookup tx.unflushed_data t with
  | none =>
    rw [href] at h
    simp only [Prod.mk.injEq] at h
    exact Or.inl h.2.2.symm
  | some ref =>
    rw [href] at h
    by_cases hemp : (heapGet sh ref).isEmpty
    · simp only [hemp, if_true, Prod.mk.injEq] at h
      exact Or.inl h.2.2.symm
    · simp only [hemp, if_false, Bool.false_eq_true] at h
      cases hput : (put_if_absent (takeUuid sh).2
          ("_table_" ++ t ++ "_" ++ (takeUuid sh).1)
          (DataObject.to_dict
            ⟨t, (takeUuid sh).1, heapGet sh ref, (heapGet sh ref).length⟩)) with
      | mk e1 shp =>
        rw [hput] at h
        cases e1 with
        | some e' =>
          simp only [Prod.mk.injEq] at h
          exact Or.inl h.2.2.symm
        | none =>
          simp only [Prod.mk.injEq] at h
          refine Or.inr ⟨t, (alookup tx.actions t).getD [] ++
            [⟨some ⟨(takeUuid sh).1, t⟩, none⟩], ?_, by simp⟩
          rw [← h.2.2, appendEntry_lookup_self]

theorem flushAll_empty_final (ts : List String) (sh sh' : Shared)
    (tx tx' : Transaction) (h : flushAll sh tx ts = (none, sh', tx'))
    (hempty : ∀ p ∈ tx'.actions, p.2 = ([] : List Action)) :
    sh' = sh ∧ tx' = tx := by
  induction ts generalizing sh tx with
  | nil =>
    unfold flushAll at h
    simp only [Prod.mk.injEq] at h
    exact ⟨h.2.1.symm, h.2.2.symm⟩
  | cons t rest ih =>
    unfold flushAll at h
    cases hc : flushCore sh tx t with
    | mk e1 p =>
      rw [hc] at h
      cases e1 with
      | some e => simp at h
      | none =>
        obtain ⟨hsh, htx⟩ := ih p.1 p.2 h
        rcases flushCore_none_cases sh p.1 tx p.2 t (by rw [hc]) with
          ⟨h1, h2⟩ | hne
        · exact ⟨hsh.trans h1, htx.trans h2⟩
        · exfalso
          obtain ⟨k, l, hl, hlne⟩ := hne
          have := hempty (k, l) (by rw [htx]; exact alookup_mem _ _ _ hl)
          exact hlne this

end FlushLemmas

/-- Claim C10: if `put_if_absent` fails during `flush_rows` for any reason
(a name collision on the data-object blob included), the error propagates
and the state is untouched: the store's blobs and the heap (hence every
table's unflushed buffer) are unchanged, no action is appended, and the
transaction remains open and unmodified. -/
theorem flush_rows_put_error_frame (sh : Shared) (tx : Transaction)
    (table : String) (ref : Nat) (e : Err)
    (href : alookup tx.unflushed_data table = some ref)
    (hne : (heapGet sh ref).isEmpty = false)
    (hput : (put_if_absent (takeUuid sh).2
        ("_table_" ++ table ++ "_" ++ (takeUuid sh).1)
        (DataObject.to_dict
          ⟨table, (takeUuid sh).1, heapGet sh ref,
           (heapGet sh ref).length⟩)).1 = some e) :
    flush_rows sh (some tx) table = (some e, (takeUuid sh).2, some tx) ∧
    (takeUuid sh).2.blobs = sh.blobs ∧ (takeUuid sh).2.heap = sh.heap := by
  refine ⟨?_, takeUuid_blobs sh, takeUuid_heap sh⟩
  have hps := put_err_state _ _ _ _ hput
  have hpair : put_if_absent (takeUuid sh).2
      ("_table_" ++ table ++ "_" ++ (takeUuid sh).1)
      (DataObject.to_dict
        ⟨table, (takeUuid sh).1, heapGet sh ref, (heapGet sh ref).length⟩) =
      (some e, (takeUuid sh).2) := by
    rw [← Prod.mk.eta (p := put_if_absent _ _ _), hput, hps]
  simp only [flush_rows, flushCore]
  rw [href]
  simp only [hne, Bool.false_eq_true, if_false, hpair]

theorem flush_rows_put_error_frame_witness :
    flush_rows w10sh (some w10tx) "t" =
      (some (Err.alreadyExists "_table_t_u"), (takeUuid w10sh).2, some w10tx) ∧
    (takeUuid w10sh).2.blobs = w10sh.blobs ∧
    (takeUuid w10sh).2.heap = w10sh.heap :=
  flush_rows_put_error_frame w10sh w10tx "t" 0
    (Err.alreadyExists "_table_t_u") rfl rfl rfl

/-- Claim C1: at commit time, after a successful flush pass, a log write
failing with `AlreadyExists` clears the current transaction and raises
`ConcurrentCommit`, while a log write failing with any other store error
propagates that error unchanged and leaves the transaction open for a
retry. -/
theorem commit_tx_log_write_failure (sh sh' : Shared) (tx tx' : Transaction)
    (hflush : flushAll sh tx (tx.tables.map Prod.fst) = (none, sh', tx'))
    (hwrote : tx'.actions.all (fun p => p.2.isEmpty) = false) :
    (∀ n, (put_if_absent sh' (logName tx'.id) (encodeLogEntry tx')).1 =
        some (.alreadyExists n) →
      commit_tx sh (some tx) = (some .concurrentCommit, sh', none)) ∧
    (∀ m, (put_if_absent sh' (logName tx'.id) (encodeLogEntry tx')).1 =
        some (.storeOther m) →
      commit_tx sh (some tx) = (some (.storeOther m), sh', some tx')) := by
  constructor
  · intro n hp
    have hps := put_err_state _ _ _ _ hp
    have hpair : put_if_absent sh' (logName tx'.id) (encodeLogEntry tx') =
        (some (.alreadyExists n), sh') := by
      rw [← Prod.mk.eta (p := put_if_absent _ _ _), hp, hps]
    simp only [commit_tx]
    rw [hflush]
    simp only [hwrote, Bool.false_eq_true, if_false, hpair]
  · intro m hp
    have hps := put_err_state _ _ _ _ hp
    have hpair : put_if_absent sh' (logName tx'.id) (encodeLogEntry tx') =
        (some (.storeOther m), sh') := by
      rw [← Prod.mk.eta (p := put_if_absent _ _ _), hp, hps]
    simp only [commit_tx]
    rw [hflush]
    simp only [hwrote, Bool.false_eq_true, if_false, hpair]

theorem commit_tx_log_write_failure_witness :
    commit_tx w1ash (some w1tx) = (some .concurrentCommit, w1ash, none) ∧
    commit_tx w1bsh (some w1tx) = (some (Err.storeOther "io"), w1bsh, some w1tx) :=
  ⟨(commit_tx_log_write_failure w1ash w1ash w1tx w1tx rfl rfl).1
      "_log_00000000000000000001" rfl,
   (commit_tx_log_write_failure w1bsh w1bsh w1tx w1tx rfl rfl).2 "io" rfl⟩

/-- Claim C5: a transaction whose local actions are all empty after the
commit-time flush pass commits successfully as a no-op: the current
transaction is cleared and the store is exactly the store from before the
commit (in particular the flush pass itself wrote nothing). -/
theorem commit_tx_readonly_noop (sh sh' : Shared) (tx tx' : Transaction)
    (hflush : flushAll sh tx (tx.tables.map Prod.fst) = (none, sh', tx'))
    (hempty : ∀ p ∈ tx'.actions, p.2 = ([] : List Action)) :
    commit_tx sh (some tx) = (none, sh, none) ∧ sh' = sh := by
  obtain ⟨hsh, htx⟩ := flushAll_empty_final _ _ _ _ _ hflush hempty
  have hall : tx'.actions.all (fun p => p.2.isEmpty) = true := by
    rw [List.all_eq_true]
    intro p hp
    simp [hempty p hp]
  refine ⟨?_, hsh⟩
  simp only [commit_tx]
  rw [hflush]
  simp only [hall, if_true, hsh]

theorem commit_tx_readonly_noop_witness :
    commit_tx w5sh (some w5tx) = (none, w5sh, none) ∧ w5sh = w5sh :=
  commit_tx_readonly_noop w5sh w5sh w5tx w5tx rfl (by simp [w5tx])

section ScanHelpers

theorem getD_concat_length (heap : List (List Json)) (l : List Json) :
    (heap ++ [l]).getD heap.length [] = l := by
  induction heap with
  | nil => rfl
  | cons h t ih => simp [List.getD, ih]

end ScanHelpers

/-- Claim C4 counterexample: on an open transaction (fresh from an empty
store), `scan` of a table unknown to the transaction does not raise
`NoSuchTable`; it raises nothing at all. -/
theorem scan_unknown_table_raises_nothing :
    (scan w5sh (some w4tx) "zzz").1 = none ∧
    (scan w5sh (some w4tx) "zzz").1 ≠ some Err.noSuchTable := by
  constructor
  · rfl
  · intro h
    cases h

/-- Claim C4 as amended: `scan` on a table not in `tables` succeeds and,
when the transaction has no snapshot actions, no local actions and no
buffered rows for that table, the returned cursor yields the empty
sequence; it is `write_row` on an unknown table that fails with
`NoSuchTable`. -/
theorem scan_unknown_table_amended (size fuel : Nat) (sh : Shared)
    (tx : Transaction) (table : String) (row : Json)
    (htab : alookup tx.tables table = none)
    (hprev : alookup tx.previous_actions table = none)
    (hact : alookup tx.actions table = none)
    (hbuf : alookup tx.unflushed_data table = none) :
    (scan sh (some tx) table).1 = none ∧
    ((scan sh (some tx) table).2.2.map
      (fun it => drain (scan sh (some tx) table).2.1 fuel it)) = some [] ∧
    write_row size sh (some tx) table row = (some .noSuchTable, sh, some tx) := by
  refine ⟨?_, ?_, ?_⟩
  · simp [scan, hprev, hact, hbuf]
  · simp only [scan, hprev, hact, hbuf]
    cases fuel with
    | zero => simp [drain]
    | succ n =>
      simp [drain, ScanIterator.next, heapGet, getD_concat_length,
        nextLoop, needLoad]
  · simp [write_row, htab]

theorem scan_unknown_table_amended_witness :
    (scan w5sh (some w4tx) "zzz").1 = none ∧
    ((scan w5sh (some w4tx) "zzz").2.2.map
      (fun it => drain (scan w5sh (some w4tx) "zzz").2.1 5 it)) = some [] ∧
    write_row 65536 w5sh (some w4tx) "zzz" (Json.int 0) =
      (some .noSuchTable, w5sh, some w4tx) :=
  scan_unknown_table_amended 65536 5 w5sh w4tx "zzz" (Json.int 0)
    rfl rfl rfl rfl

/-- Claim C7: `write_row` on a known table appends the row to the table's
buffer and returns with no other state change while the buffer stays below
`DATAOBJECT_SIZE` (default 65536); when the buffer length reaches the
threshold, `write_row` immediately becomes a `flush_rows` of the
post-append state.  Concretely, with the threshold at 4, writing 10 rows
and committing produces exactly three data-object blobs of `Len` 4, 4
and 2. -/
theorem write_row_buffer_threshold (size : Nat) (sh : Shared)
    (tx : Transaction) (table : String) (row : Json) (ref : Nat)
    (cols : List String)
    (htab : alookup tx.tables table = some cols)
    (href : alookup tx.unflushed_data table = some ref) :
    DATAOBJECT_SIZE = 65536 ∧
    ((heapGet sh ref).length + 1 < size →
      write_row size sh (some tx) table row =
        (none, { sh with heap := sh.heap.set ref (heapGet sh ref ++ [row]) },
         some tx)) ∧
    (size ≤ (heapGet sh ref).length + 1 →
      write_row size sh (some tx) table row =
        flush_rows { sh with heap := sh.heap.set ref (heapGet sh ref ++ [row]) }
          (some tx) table) ∧
    (list_blobs c7final.sh "_table_").length = 3 ∧
    c7final.sh.blobs.filterMap (fun p =>
      if strStartsWith p.1 "_table_" then jGet p.2 "Len" else none) =
      [.int 4, .int 4, .int 2] := by
  refine ⟨rfl, ?_, ?_, by rfl, by rfl⟩
  · intro hlt
    simp only [write_row, htab, Option.isNone_some, Bool.false_eq_true,
      if_false, href]
    simp [Nat.not_le.mpr hlt]
  · intro hge
    simp only [write_row, htab, Option.isNone_some, Bool.false_eq_true,
      if_false, href]
    simp [hge]

section RoundTripLemmas

theorem appendEntry_fresh {α : Type} (m : List (String × List α)) (t : String)
    (a : α) (h : alookup m t = none) : appendEntry m t a = m ++ [(t, [a])] := by
  simp [appendEntry, h]

theorem aset_append_fresh {α : Type} (m : List (String × α)) (t : String)
    (w v : α) (h : alookup m t = none) :
    aset (m ++ [(t, w)]) t v = m ++ [(t, v)] := by
  induction m with
  | nil => simp [aset]
  | cons p rest ih =>
    by_cases hp : p.1 = t
    · simp [alookup, hp] at h
    · simp only [alookup, hp, if_false] at h
      simp [aset, hp, ih h]

theorem foldAppend_fresh_acc {α : Type} (rest : List α)
    (m : List (String × List α)) (t : String) (acc : List α)
    (h : alookup m t = none) :
    foldAppend (m ++ [(t, acc)]) t rest = m ++ [(t, acc ++ rest)] := by
  induction rest generalizing acc with
  | nil => simp [foldAppend]
  | cons a rs ih =>
    have hl : alookup (m ++ [(t, acc)]) t = some acc := by
      rw [alookup_append, h]
      simp [alookup]
    have hstep : appendEntry (m ++ [(t, acc)]) t a = m ++ [(t, acc ++ [a])] := by
      simp [appendEntry, hl, aset_append_fresh _ _ _ _ h]
    simp only [foldAppend, hstep, ih (acc ++ [a])]
    simp

theorem foldAppend_fresh {α : Type} (l : List α) (m : List (String × List α))
    (t : String) (h : alookup m t = none) (hne : l ≠ []) :
    foldAppend m t l = m ++ [(t, l)] := by
  cases l with
  | nil => exact absurd rfl hne
  | cons a rs =>
    show foldAppend (appendEntry m t a) t rs = m ++ [(t, a :: rs)]
    rw [appendEntry_fresh _ _ _ h, foldAppend_fresh_acc _ _ _ _ h]
    simp

theorem asStrList_map_str (l : List String) :
    asStrList (.arr (l.map .str)) = some l := by
  induction l with
  | nil => rfl
  | cons s rs ih =>
    have ih' : strListOf (rs.map Json.str) = some rs := by
      simpa [asStrList] using ih
    simp [asStrList, strListOf, ih']

theorem replayActionList_map_to_dict (l : List Action) (table : String)
    (tx0 : Transaction) (hwf : ∀ a ∈ l, wellFormedAction a) :
    ∃ tx1, replayActionList table tx0 (l.map Action.to_dict) = .ok tx1 ∧
      tx1.id = tx0.id ∧
      tx1.previous_actions = foldAppend tx0.previous_actions table l ∧
      tx1.actions = tx0.actions ∧
      tx1.unflushed_data = tx0.unflushed_data := by
  induction l generalizing tx0 with
  | nil => exact ⟨tx0, rfl, rfl, rfl, rfl, rfl⟩
  | cons a rs ih =>
    have hwa := hwf a (List.mem_cons_self a rs)
    have hrest : ∀ x ∈ rs, wellFormedAction x :=
      fun x hx => hwf x (List.mem_cons_of_mem a hx)
    rcases a with ⟨ad, cm⟩
    rcases hwa with ⟨hsome, hnone⟩ | ⟨hnone, hsome⟩
    · obtain ⟨d, hd⟩ := Option.isSome_iff_exists.mp hsome
      simp only at hd hnone
      subst hd
      subst hnone
      obtain ⟨tx1, heq, hid, hprev, hact, hunf⟩ := ih
        { tx0 with previous_actions :=
            appendEntry tx0.previous_actions table ⟨some ⟨d.name, d.table⟩, none⟩ }
        hrest
      refine ⟨tx1, ?_, hid, ?_, hact, hunf⟩
      · simp [List.map_cons, replayActionList, Action.to_dict,
          DataobjectAction.to_dict, decodeAdd, jHas, jGet, alookup]
        exact heq
      · rw [hprev]
        rfl
    · obtain ⟨c, hc⟩ := Option.isSome_iff_exists.mp hsome
      simp only at hc hnone
      subst hc
      subst hnone
      obtain ⟨tx1, heq, hid, hprev, hact, hunf⟩ := ih
        { tx0 with
          tables := aset tx0.tables table c.columns,
          previous_actions :=
            appendEntry tx0.previous_actions table
              ⟨none, some ⟨c.table, c.columns⟩⟩ }
        hrest
      refine ⟨tx1, ?_, hid, ?_, hact, hunf⟩
      · simp [List.map_cons, replayActionList, Action.to_dict,
          ChangeMetadataAction.to_dict, decodeChange, jHas, jGet, alookup,
          asStrList_map_str]
        exact heq
      · rw [hprev]
        rfl

theorem replayTables_map (acts : List (String × List Action))
    (tx0 : Transaction)
    (hkeys : (acts.map Prod.fst).Nodup)
    (hdisj : ∀ k ∈ acts.map Prod.fst, alookup tx0.previous_actions k = none)
    (hne : ∀ p ∈ acts, p.2 ≠ ([] : List Action))
    (hwf : ∀ p ∈ acts, ∀ a ∈ p.2, wellFormedAction a) :
    ∃ tx1, replayTables tx0
        (acts.map (fun p => (p.1, Json.arr (p.2.map Action.to_dict)))) =
      .ok tx1 ∧
      tx1.previous_actions = tx0.previous_actions ++ acts := by
  induction acts generalizing tx0 with
  | nil => exact ⟨tx0, rfl, by simp⟩
  | cons p rest ih =>
    rcases p with ⟨t, l⟩
    obtain ⟨tx1, heq, hid, hprev, hact, hunf⟩ :=
      replayActionList_map_to_dict l t tx0
        (fun a ha => hwf (t, l) (List.mem_cons_self _ _) a ha)
    have hfl : tx1.previous_actions = tx0.previous_actions ++ [(t, l)] := by
      rw [hprev, foldAppend_fresh _ _ _
        (hdisj t (by simp)) (hne (t, l) (List.mem_cons_self _ _))]
    have hkeys' : (rest.map Prod.fst).Nodup := by
      simp only [List.map_cons, List.nodup_cons] at hkeys
      exact hkeys.2
    have htno : t ∉ rest.map Prod.fst := by
      simp only [List.map_cons, List.nodup_cons] at hkeys
      exact hkeys.1
    have hdisj' : ∀ k ∈ rest.map Prod.fst,
        alookup tx1.previous_actions k = none := by
      intro k hk
      rw [hfl, alookup_append, hdisj k (List.mem_cons_of_mem _ hk)]
      have hkt : ¬(t = k) := fun h => htno (h ▸ hk)
      simp [alookup, hkt]
    obtain ⟨tx2, heq2, hprev2⟩ := ih tx1 hkeys' hdisj'
      (fun q hq => hne q (List.mem_cons_of_mem _ hq))
      (fun q hq a ha => hwf q (List.mem_cons_of_mem _ hq) a ha)
    refine ⟨tx2, ?_, ?_⟩
    · simp [List.map_cons, replayTables, heq]
      exact heq2
    · rw [hprev2, hfl]
      simp

end RoundTripLemmas

/-- Claim C9: serialization round-trips.  Decoding the serialized envelope
of any data object reproduces it exactly, and replaying the serialized
envelope of a log entry (through the `new_tx` decoding path, into a fresh
transaction) reproduces the entry's id and its per-table action sequences,
provided the recorded actions are the well-formed shapes the client
produces: distinct table keys, non-empty per-table sequences, and exactly
one variant per action. -/
theorem serialization_roundtrip (d : DataObject) (tx : Transaction)
    (hkeys : (tx.actions.map Prod.fst).Nodup)
    (hne : ∀ p ∈ tx.actions, p.2 ≠ ([] : List Action))
    (hwf : ∀ p ∈ tx.actions, ∀ a ∈ p.2, wellFormedAction a) :
    decodeDataObject (DataObject.to_dict d) = some d ∧
    jGet (encodeLogEntry tx) "Id" = some (.int tx.id) ∧
    ∃ tx', replayLogEntry (encodeLogEntry tx) emptyTx = .ok tx' ∧
      tx'.previous_actions = tx.actions := by
  refine ⟨?_, rfl, ?_⟩
  · rcases d with ⟨t, n, dat, len⟩
    simp [decodeDataObject, DataObject.to_dict, jGet, alookup]
  · obtain ⟨tx', heq, hprev⟩ := replayTables_map tx.actions emptyTx hkeys
      (fun k _ => rfl) hne hwf
    refine ⟨tx', ?_, by simpa using hprev⟩
    simp [replayLogEntry, encodeLogEntry, jGet, alookup]
    exact heq

theorem serialization_roundtrip_witness :
    decodeDataObject (DataObject.to_dict w9d) = some w9d ∧
    jGet (encodeLogEntry w9tx) "Id" = some (.int w9tx.id) ∧
    ∃ tx', replayLogEntry (encodeLogEntry w9tx) emptyTx = .ok tx' ∧
      tx'.previous_actions = w9tx.actions :=
  serialization_roundtrip w9d w9tx (by simp [w9tx])
    (by intro p hp; simp [w9tx] at hp; simp [hp])
    (by
      intro p hp a ha
      simp [w9tx] at hp
      rw [hp] at ha
      simp at ha
      rcases ha with ha | ha <;> rw [ha] <;> simp [wellFormedAction])

theorem write_row_buffer_threshold_witness :
    DATAOBJECT_SIZE = 65536 ∧
    write_row 4 w7sh (some w10tx) "t" (Json.int 9) =
      (none, { w7sh with heap := w7sh.heap.set 0 (heapGet w7sh 0 ++ [Json.int 9]) },
       some w10tx) :=
  ⟨(write_row_buffer_threshold 4 w7sh w10tx "t" (Json.int 9) 0 ["a"]
      rfl rfl).1,
   (write_row_buffer_threshold 4 w7sh w10tx "t" (Json.int 9) 0 ["a"]
      rfl rfl).2.1 (by decide)⟩

section NewTxLemmas

theorem replayActionList_wf_ok (table : String) :
    ∀ (l : List Json), (∀ j ∈ l, wfActionDoc j = true) →
    ∀ tx, ∃ tx', replayActionList table tx l = .ok tx' := by
  intro l
  induction l with
  | nil => exact fun _ tx => ⟨tx, rfl⟩
  | cons j rest ih =>
    intro h tx
    have hj := h j (List.mem_cons_self j rest)
    have hrest : ∀ x ∈ rest, wfActionDoc x = true :=
      fun x hx => h x (List.mem_cons_of_mem j hx)
    unfold wfActionDoc at hj
    by_cases ha : jHas j "AddDataobject"
    · rw [if_pos ha] at hj
      obtain ⟨⟨n, t⟩, hd⟩ := Option.isSome_iff_exists.mp hj
      obtain ⟨tx', htx'⟩ := ih hrest
        { tx with previous_actions :=
            appendEntry tx.previous_actions table ⟨some ⟨n, t⟩, none⟩ }
      refine ⟨tx', ?_⟩
      simp only [replayActionList, ha, if_true, hd]
      exact htx'
    · rw [if_neg ha] at hj
      by_cases hc : jHas j "ChangeMetadata"
      · rw [if_pos hc] at hj
        obtain ⟨⟨t, cols⟩, hd⟩ := Option.isSome_iff_exists.mp hj
        obtain ⟨tx', htx'⟩ := ih hrest
          { tx with tables := aset tx.tables table cols,
                    previous_actions :=
              appendEntry tx.previous_actions table ⟨none, some ⟨t, cols⟩⟩ }
        refine ⟨tx', ?_⟩
        simp only [replayActionList, ha, hc, if_true, Bool.false_eq_true,
          if_false, hd]
        exact htx'
      · rw [if_neg hc] at hj
        simp at hj

theorem replayTables_wf_ok :
    ∀ (items : List (String × Json)),
    (∀ p ∈ items, ∃ l, p.2 = Json.arr l ∧ ∀ x ∈ l, wfActionDoc x = true) →
    ∀ tx, ∃ tx', replayTables tx items = .ok tx' := by
  intro items
  induction items with
  | nil => exact fun _ tx => ⟨tx, rfl⟩
  | cons p rest ih =>
    intro h tx
    obtain ⟨l, hl, hwfl⟩ := h p (List.mem_cons_self p rest)
    obtain ⟨tx1, h1⟩ := replayActionList_wf_ok p.1 l hwfl tx
    obtain ⟨tx2, h2⟩ := ih (fun q hq => h q (List.mem_cons_of_mem p hq)) tx1
    refine ⟨tx2, ?_⟩
    rcases p with ⟨t, v⟩
    simp only at hl
    subst hl
    simp only [replayTables, h1]
    exact h2

theorem wfLogJson_id (j : Json) (h : wfLogJson j = true) :
    ∃ i : Int, jGet j "Id" = some (.int i) := by
  unfold wfLogJson at h
  rw [Bool.and_eq_true] at h
  cases hj : jGet j "Id" with
  | none => rw [hj] at h; simp at h
  | some v =>
    cases v with
    | int i => exact ⟨i, rfl⟩
    | str s => rw [hj] at h; simp at h
    | arr l => rw [hj] at h; simp at h
    | obj o => rw [hj] at h; simp at h

theorem replayLogEntry_wf_ok (j : Json) (hwf : wfLogJson j = true)
    (tx : Transaction) : ∃ tx', replayLogEntry j tx = .ok tx' := by
  unfold wfLogJson at hwf
  rw [Bool.and_eq_true] at hwf
  obtain ⟨_, hacts⟩ := hwf
  cases hj : jGet j "Actions" with
  | none => rw [hj] at hacts; simp at hacts
  | some v =>
    rw [hj] at hacts
    cases v with
    | str s => simp at hacts
    | int i => simp at hacts
    | arr l => simp at hacts
    | obj items =>
      have hall : ∀ p ∈ items, ∃ l, p.2 = Json.arr l ∧
          ∀ x ∈ l, wfActionDoc x = true := by
        simp only [List.all_eq_true] at hacts
        intro p hp
        have hone := hacts p hp
        cases hv : p.2 with
        | arr l =>
          rw [hv] at hone
          simp only [List.all_eq_true] at hone
          exact ⟨l, rfl, hone⟩
        | str s => rw [hv] at hone; simp at hone
        | int i => rw [hv] at hone; simp at hone
        | obj o => rw [hv] at hone; simp at hone
      obtain ⟨tx', h'⟩ := replayTables_wf_ok items hall tx
      refine ⟨tx', ?_⟩
      simp only [replayLogEntry, hj]
      exact h'

theorem replayLogs_max (sh : Shared) :
    ∀ (names : List String),
    (∀ n ∈ names, ∃ j, readBlob sh n = some j ∧ wfLogJson j = true) →
    ∀ m0 tx, ∃ tx', replayLogs sh names m0 tx =
      .ok (names.foldl (fun a n => max a (blobId sh n)) m0, tx') := by
  intro names
  induction names with
  | nil => exact fun _ m0 tx => ⟨tx, rfl⟩
  | cons n rest ih =>
    intro h m0 tx
    obtain ⟨j, hr, hwf⟩ := h n (List.mem_cons_self n rest)
    obtain ⟨i, hid⟩ := wfLogJson_id j hwf
    obtain ⟨tx1, h1⟩ := replayLogEntry_wf_ok j hwf tx
    obtain ⟨tx2, h2⟩ :=
      ih (fun x hx => h x (List.mem_cons_of_mem n hx)) (max m0 i.toNat) tx1
    refine ⟨tx2, ?_⟩
    have hbid : blobId sh n = i.toNat := by simp [blobId, hr, logIdOf, hid]
    simp only [replayLogs, hr, hid, h1, List.foldl_cons, hbid]
    exact h2

theorem insertSorted_perm (s : String) (l : List String) :
    (insertSorted s l).Perm (s :: l) := by
  induction l with
  | nil => simp [insertSorted]
  | cons t rest ih =>
    unfold insertSorted
    by_cases h : s ≤ t
    · simp [h]
    · rw [if_neg h]
      exact (ih.cons t).trans (List.Perm.swap s t rest)

theorem sortStrings_perm (l : List String) : (sortStrings l).Perm l := by
  induction l with
  | nil => simp [sortStrings]
  | cons s rest ih =>
    simp only [sortStrings]
    exact (insertSorted_perm s (sortStrings rest)).trans (ih.cons s)

theorem foldl_max_perm (f : String → Nat) {l1 l2 : List String}
    (p : l1.Perm l2) :
    ∀ a, l1.foldl (fun acc n => max acc (f n)) a =
      l2.foldl (fun acc n => max acc (f n)) a := by
  induction p with
  | nil => intro a; rfl
  | cons x _ ih => intro a; simp only [List.foldl_cons]; exact ih _
  | swap x y l =>
    intro a
    simp only [List.foldl_cons]
    rw [sup_right_comm]
  | trans _ _ ih1 ih2 => intro a; rw [ih1, ih2]

theorem alookup_of_nodup {α : Type} (m : List (String × α))
    (hnd : (m.map Prod.fst).Nodup) (p : String × α) (hp : p ∈ m) :
    alookup m p.1 = some p.2 := by
  induction m with
  | nil => cases hp
  | cons q rest ih =>
    rw [List.map_cons, List.nodup_cons] at hnd
    rcases List.mem_cons.mp hp with h | h
    · subst h; simp [alookup]
    · have hq : q.1 ≠ p.1 := by
        intro he
        exact hnd.1 (he ▸ List.mem_map_of_mem Prod.fst h)
      simp [alookup, hq, ih hnd.2 h]

theorem filter_map_fst {α : Type} (l : List (String × α))
    (pred : String → Bool) :
    (l.map Prod.fst).filter pred = (l.filter (fun p => pred p.1)).map Prod.fst := by
  induction l with
  | nil => rfl
  | cons p rest ih =>
    by_cases h : pred p.1 <;> simp [List.filter, h, ih]

theorem foldl_max_map (sh : Shared) :
    ∀ (l : List (String × Json)),
    (∀ p ∈ l, blobId sh p.1 = logIdOf p.2) →
    ∀ a, (l.map Prod.fst).foldl (fun acc n => max acc (blobId sh n)) a =
      l.foldl (fun acc p => max acc (logIdOf p.2)) a := by
  intro l
  induction l with
  | nil => intro _ a; rfl
  | cons p rest ih =>
    intro h a
    simp only [List.map_cons, List.foldl_cons]
    rw [h p (List.mem_cons_self p rest)]
    exact ih (fun q hq => h q (List.mem_cons_of_mem p hq)) _

end NewTxLemmas

/-- Claim C6: when no transaction is open, `new_tx` (on any store whose
log blobs decode, with distinct blob names) assigns the new transaction an
id equal to the maximum id observed among the log entries plus one; on an
empty log the new id is 1. -/
theorem new_tx_assigns_max_plus_one (sh : Shared)
    (hnodup : (sh.blobs.map Prod.fst).Nodup)
    (hwf : ∀ p ∈ sh.blobs, strStartsWith p.1 "_log_" = true →
      wfLogJson p.2 = true) :
    ∃ tx, new_tx sh none = (none, sh, some tx) ∧
      tx.id = maxLogId sh + 1 ∧
      (sh.blobs.filter (fun p => strStartsWith p.1 "_log_") = [] →
        tx.id = 1) := by
  have hperm := sortStrings_perm (list_blobs sh "_log_")
  have hn : ∀ n ∈ sortStrings (list_blobs sh "_log_"),
      ∃ j, readBlob sh n = some j ∧ wfLogJson j = true := by
    intro n hnm
    have h2 : n ∈ list_blobs sh "_log_" := hperm.mem_iff.mp hnm
    rw [list_blobs, filter_map_fst] at h2
    obtain ⟨p, hp, hfst⟩ := List.mem_map.mp h2
    have hmem := (List.mem_filter.mp hp).1
    have hpred := (List.mem_filter.mp hp).2
    refine ⟨p.2, ?_, hwf p hmem hpred⟩
    rw [← hfst]
    simpa [readBlob] using alookup_of_nodup sh.blobs hnodup p hmem
  obtain ⟨tx', heq⟩ :=
    replayLogs_max sh (sortStrings (list_blobs sh "_log_")) hn 0 emptyTx
  have hm : (sortStrings (list_blobs sh "_log_")).foldl
      (fun a n => max a (blobId sh n)) 0 = maxLogId sh := by
    rw [foldl_max_perm (blobId sh) hperm 0]
    rw [list_blobs, filter_map_fst]
    have hpt : ∀ p ∈ sh.blobs.filter (fun p => strStartsWith p.1 "_log_"),
        blobId sh p.1 = logIdOf p.2 := by
      intro p hp
      have hmem := (List.mem_filter.mp hp).1
      simp [blobId, readBlob, alookup_of_nodup sh.blobs hnodup p hmem]
    rw [foldl_max_map sh _ hpt 0]
    rfl
  refine ⟨{ tx' with id := maxLogId sh + 1 }, ?_, rfl, ?_⟩
  · simp only [new_tx]
    rw [heq, hm]
  · intro hfil
    simp [maxLogId, hfil]

theorem new_tx_assigns_max_plus_one_witness :
    ∃ tx, new_tx w6sh none = (none, w6sh, some tx) ∧
      tx.id = maxLogId w6sh + 1 ∧
      (w6sh.blobs.filter (fun p => strStartsWith p.1 "_log_") = [] →
        tx.id = 1) :=
  new_tx_assigns_max_plus_one w6sh (by decide) (by decide)

section AliasLemmas

theorem getD_set_self (l : List (List Json)) (i : Nat) (v : List Json)
    (h : i < l.length) : (l.set i v).getD i [] = v := by
  induction l generalizing i with
  | nil => simp at h
  | cons x rest ih =>
    cases i with
    | zero => rfl
    | succ k =>
      simp only [List.length_cons, Nat.succ_lt_succ_iff] at h
      simp only [List.set, List.getD, List.getElem?_cons_succ]
      exact ih k h

theorem drop_eq_getD_cons (l : List Json) :
    ∀ k, k < l.length → l.drop k = l.getD k (.int 0) :: l.drop (k + 1) := by
  induction l with
  | nil => intro k h; simp at h
  | cons x rest ih =>
    intro k h
    cases k with
    | zero => rfl
    | succ m =>
      simp only [List.length_cons, Nat.succ_lt_succ_iff] at h
      simp only [List.drop_succ_cons]
      have := ih m h
      simp only [List.getD, List.getElem?_cons_succ]
      simpa [List.getD] using this

theorem drain_unflushed_only (sh : Shared) :
    ∀ (fuel : Nat) (it : ScanIterator), it.dataobjects = [] →
      it.dataobject = none →
      (heapGet sh it.unflushed_ref).length - it.unflushed_row_pointer + 1 ≤ fuel →
      drain sh fuel it =
        (heapGet sh it.unflushed_ref).drop it.unflushed_row_pointer := by
  intro fuel
  induction fuel with
  | zero => intro it _ _ hf; omega
  | succ n ih =>
    intro it hdo hob hf
    by_cases hk : it.unflushed_row_pointer < (heapGet sh it.unflushed_ref).length
    · have hnext : it.next sh =
          (.row ((heapGet sh it.unflushed_ref).getD it.unflushed_row_pointer
              (.int 0)),
           { it with unflushed_row_pointer := it.unflushed_row_pointer + 1 }) := by
        simp [ScanIterator.next, hk]
      simp only [drain, hnext]
      rw [ih { it with unflushed_row_pointer := it.unflushed_row_pointer + 1 }
        hdo hob (by simp; omega)]
      exact (drop_eq_getD_cons _ _ hk).symm
    · have hstop : it.next sh = (.stop, it) := by
        simp only [ScanIterator.next, hk, if_false]
        simp [nextLoop, needLoad, hob, hdo]
      simp only [drain, hstop]
      rw [List.drop_eq_nil_of_le (by omega)]
  
end AliasLemmas

/-- Claim C8 counterexample: a cursor opened on a table before the first
`write_row` on it holds Python's default fresh list, not the transaction's
buffer.  Concretely: open a transaction, create table `y`, open a cursor,
then write a row; the row is in the transaction's unflushed buffer, yet
the cursor yields nothing. -/
theorem scan_cursor_not_alias_fresh_buffer :
    c8scanRes.1 = none ∧ c8write.1 = none ∧
    (c8write.2.2.map (fun tx =>
      (alookup tx.unflushed_data "y").map (heapGet c8write.2.1))) =
      some (some [Json.int 7]) ∧
    (c8scanRes.2.2.map (fun it => drain c8write.2.1 10 it)) = some [] :=
  ⟨rfl, rfl, rfl, rfl⟩


section ScanSpecLemmas

theorem drop_cons_of_get {α : Type} (l : List α) :
    ∀ n x, l[n]? = some x →
      l.drop n = x :: l.drop (n + 1) := by
  induction l with
  | nil => intro n x h; simp at h
  | cons y rest ih =>
    intro n x h
    cases n with
    | zero => simp at h; simp [h]
    | succ m =>
      simp only [List.getElem?_cons_succ] at h
      simpa using ih m x h

theorem drop_nil_of_get_none {α : Type} (l : List α) :
    ∀ n, l[n]? = none → l.drop n = [] := by
  induction l with
  | nil => intro n _; simp
  | cons y rest ih =>
    intro n h
    cases n with
    | zero => simp at h
    | succ m =>
      simp only [List.getElem?_cons_succ] at h
      simpa using ih m h

theorem nextLoop_spec (sh : Shared) :
    ∀ (k : Nat) (it : ScanIterator), objsWf sh it →
      it.dataobjects.length - it.dataobjects_pointer + 1 ≤ k →
      ((specObj sh it = [] → ∃ it2, nextLoop sh k it = (.stop, it2)) ∧
       (∀ r rest, specObj sh it = r :: rest →
         ∃ it2, nextLoop sh k it = (.row r, it2) ∧ objsWf sh it2 ∧
           frameEq it2 it ∧ specObj sh it2 = rest)) := by
  intro k
  induction k with
  | zero => intro it _ hb; omega
  | succ n ih =>
    intro it hwf hb
    by_cases hnl : needLoad it
    · have hcur : (match it.dataobject with
          | some d => d.data.drop it.dataobject_row_pointer
          | none => ([] : List Json)) = [] := by
        cases hob : it.dataobject with
        | none => rfl
        | some d =>
          have hlen := hwf.2 d hob
          unfold needLoad at hnl
          rw [hob] at hnl
          simp only [decide_eq_true_eq] at hnl
          exact List.drop_eq_nil_of_le (by omega)
      cases hget : it.dataobjects[it.dataobjects_pointer]? with
      | none =>
        have hdrop : it.dataobjects.drop it.dataobjects_pointer = [] :=
          drop_nil_of_get_none _ _ hget
        constructor
        · intro _
          exact ⟨it, by simp [nextLoop, hnl, hget]⟩
        · intro r rest hvs
          rw [specObj, hcur, hdrop] at hvs
          simp at hvs
      | some name =>
        have hd1 := drop_cons_of_get _ _ _ hget
        have hwfname : wfObj sh it.table name :=
          hwf.1 name (by rw [hd1]; exact List.mem_cons_self _ _)
        obtain ⟨d, hbind, hlen⟩ := hwfname
        obtain ⟨j, hread, hdec⟩ := Option.bind_eq_some.mp hbind
        have hwf2 : objsWf sh
            { it with dataobject := some d,
                      dataobjects_pointer := it.dataobjects_pointer + 1,
                      dataobject_row_pointer := 0 } := by
          constructor
          · intro nm hnm
            apply hwf.1
            rw [hd1]
            exact List.mem_cons_of_mem _ hnm
          · intro d' hd'
            simp only at hd'
            cases hd'
            exact hlen
        have hspec2 : specObj sh
            { it with dataobject := some d,
                      dataobjects_pointer := it.dataobjects_pointer + 1,
                      dataobject_row_pointer := 0 } = specObj sh it := by
          simp only [specObj, hd1]
          simp only [List.drop_zero, List.flatMap_cons]
          have hor : objRows sh it.table name = d.data := by
            simp [objRows, hread, hdec]
          rw [hcur, hor]
          simp
        have hlt : it.dataobjects_pointer < it.dataobjects.length := by
          by_contra hge
          rw [List.getElem?_eq_none (by omega)] at hget
          cases hget
        have hstep : nextLoop sh (n + 1) it = nextLoop sh n
            { it with dataobject := some d,
                      dataobjects_pointer := it.dataobjects_pointer + 1,
                      dataobject_row_pointer := 0 } := by
          simp [nextLoop, hnl, hget, hread, hdec]
        obtain ⟨ha, hbx⟩ := ih _ hwf2 (by simp only; omega)
        constructor
        · intro hnil
          obtain ⟨it3, h3⟩ := ha (by rw [hspec2]; exact hnil)
          exact ⟨it3, by rw [hstep]; exact h3⟩
        · intro r rest hvs
          obtain ⟨it3, h3, hw3, hf3, hs3⟩ := hbx r rest (by rw [hspec2]; exact hvs)
          refine ⟨it3, by rw [hstep]; exact h3, hw3, ?_, hs3⟩
          obtain ⟨hf1, hf2x, hf3x, hf4⟩ := hf3
          exact ⟨hf1, hf2x, hf3x, hf4⟩
    · have hob : ∃ d, it.dataobject = some d ∧
          it.dataobject_row_pointer < d.length := by
        unfold needLoad at hnl
        cases hobs : it.dataobject with
        | none => rw [hobs] at hnl; simp at hnl
        | some d =>
          rw [hobs] at hnl
          simp only [decide_eq_true_eq] at hnl
          exact ⟨d, rfl, by omega⟩
      obtain ⟨d, hobs, hltr⟩ := hob
      have hlen := hwf.2 d hobs
      have hltd : it.dataobject_row_pointer < d.data.length := by omega
      obtain ⟨r0, hget0⟩ : ∃ r0, d.data[it.dataobject_row_pointer]? = some r0 :=
        ⟨d.data[it.dataobject_row_pointer], List.getElem?_eq_getElem hltd⟩
      have hnl' : needLoad it = false := by
        cases h : needLoad it with
        | true => exact absurd h hnl
        | false => rfl
      have hdropc := drop_cons_of_get d.data _ _ hget0
      have hstep : nextLoop sh (n + 1) it =
          (.row r0,
           { it with dataobject_row_pointer := it.dataobject_row_pointer + 1 }) := by
        simp [nextLoop, hnl', hobs, hget0]
      have hsp : specObj sh it =
          r0 :: specObj sh { it with
            dataobject_row_pointer := it.dataobject_row_pointer + 1 } := by
        simp only [specObj, hobs, hdropc]
        simp
      constructor
      · intro hnil
        rw [hsp] at hnil
        cases hnil
      · intro r rest hvs
        rw [hsp] at hvs
        injection hvs with hr hrest
        refine ⟨{ it with
            dataobject_row_pointer := it.dataobject_row_pointer + 1 },
          ?_, ?_, ⟨rfl, rfl, rfl, rfl⟩, hrest.symm ▸ rfl⟩
        · rw [hstep, hr]
        · constructor
          · intro nm hnm
            exact hwf.1 nm hnm
          · intro d' hd'
            simp only at hd'
            cases hobs ▸ hd'
            exact hlen

end ScanSpecLemmas

theorem next_spec (sh : Shared) (it : ScanIterator) (hwf : objsWf sh it) :
    (specOf sh it = [] → ∃ it2, it.next sh = (.stop, it2)) ∧
    (∀ r rest, specOf sh it = r :: rest →
      ∃ it2, it.next sh = (.row r, it2) ∧ objsWf sh it2 ∧
        specOf sh it2 = rest) := by
  by_cases hk : it.unflushed_row_pointer < (heapGet sh it.unflushed_ref).length
  · obtain ⟨r0, hget0⟩ : ∃ r0,
        (heapGet sh it.unflushed_ref)[it.unflushed_row_pointer]? = some r0 :=
      ⟨(heapGet sh it.unflushed_ref)[it.unflushed_row_pointer],
       List.getElem?_eq_getElem hk⟩
    have hdropc := drop_cons_of_get _ _ _ hget0
    have hgd : (heapGet sh it.unflushed_ref).getD it.unflushed_row_pointer
        (.int 0) = r0 := by
      simp [List.getD, hget0]
    have hnext : it.next sh = (.row r0,
        { it with unflushed_row_pointer := it.unflushed_row_pointer + 1 }) := by
      simp only [ScanIterator.next, hk, if_true, hgd]
    have hsp : specOf sh it = r0 :: specOf sh
        { it with unflushed_row_pointer := it.unflushed_row_pointer + 1 } := by
      simp only [specOf, hdropc]
      simp only [List.cons_append]
      rfl
    constructor
    · intro hnil
      rw [hsp] at hnil
      cases hnil
    · intro r rest hvs
      rw [hsp] at hvs
      injection hvs with hr hrest
      exact ⟨{ it with unflushed_row_pointer := it.unflushed_row_pointer + 1 },
        by rw [hnext, hr], hwf, hrest.symm ▸ rfl⟩
  · have hdropu : (heapGet sh it.unflushed_ref).drop
        it.unflushed_row_pointer = [] :=
      List.drop_eq_nil_of_le (by omega)
    have hnext : it.next sh = nextLoop sh
        (it.dataobjects.length - it.dataobjects_pointer + 1) it := by
      simp only [ScanIterator.next, hk, if_false]
    obtain ⟨ha, hbx⟩ := nextLoop_spec sh _ it hwf (le_refl _)
    constructor
    · intro hnil
      rw [specOf, hdropu] at hnil
      simp only [List.nil_append] at hnil
      obtain ⟨it2, h2⟩ := ha hnil
      exact ⟨it2, by rw [hnext]; exact h2⟩
    · intro r rest hvs
      rw [specOf, hdropu] at hvs
      simp only [List.nil_append] at hvs
      obtain ⟨it2, h2, hw2, hf2, hs2⟩ := hbx r rest hvs
      refine ⟨it2, by rw [hnext]; exact h2, hw2, ?_⟩
      obtain ⟨hft, hfr, hfp, hfd⟩ := hf2
      rw [specOf, hfr, hfp, hdropu]
      simpa using hs2

theorem drain_spec (sh : Shared) :
    ∀ (fuel : Nat) (it : ScanIterator), objsWf sh it →
      (specOf sh it).length + 1 ≤ fuel →
      drain sh fuel it = specOf sh it := by
  intro fuel
  induction fuel with
  | zero => intro it _ h; omega
  | succ n ih =>
    intro it hwf hf
    obtain ⟨ha, hbx⟩ := next_spec sh it hwf
    cases hs : specOf sh it with
    | nil =>
      obtain ⟨it2, h2⟩ := ha hs
      simp [drain, h2]
    | cons r rest =>
      obtain ⟨it2, h2, hw2, hs2⟩ := hbx r rest hs
      simp only [drain, h2]
      rw [ih it2 hw2 (by rw [hs2]; rw [hs] at hf; simp only [List.length_cons] at hf; omega),
        hs2]

/-- Claim C3: a cursor returned by `scan` yields exactly the rows of the
table's current unflushed buffer, in insertion order, followed by the
rows of the data objects referenced by `previous_actions[table] ++
actions[table]` (filtered to `AddDataobject`), in that list order, rows
within each object in stored order — provided every referenced data
object blob exists and is well-formed. -/
theorem scan_yield_order (sh sh' : Shared) (tx : Transaction)
    (table : String) (it : ScanIterator)
    (hscan : scan sh (some tx) table = (none, sh', some it))
    (hwf : ∀ name ∈ ((alookup tx.previous_actions table).getD [] ++
        (alookup tx.actions table).getD []).filterMap
        (fun a => a.add_dataobject.map (fun d => d.name)),
      wfObj sh' table name) :
    drain sh' ((specOf sh' it).length + 1) it =
      (match alookup tx.unflushed_data table with
       | some ref => heapGet sh' ref
       | none => []) ++
      (((alookup tx.previous_actions table).getD [] ++
        (alookup tx.actions table).getD []).filterMap
        (fun a => a.add_dataobject.map (fun d => d.name))).flatMap
        (objRows sh' table) := by
  cases hbuf : alookup tx.unflushed_data table with
  | some ref =>
    simp only [scan, hbuf, Prod.mk.injEq, Option.some.injEq, true_and] at hscan
    obtain ⟨hsh, hit⟩ := hscan
    rw [← hit, ← hsh]
    rw [← hsh] at hwf
    have hwfit : objsWf sh ⟨table, ref, 0,
        ((alookup tx.previous_actions table).getD [] ++
          (alookup tx.actions table).getD []).filterMap
          (fun a => a.add_dataobject.map (fun d => d.name)), 0, none, 0⟩ := by
      constructor
      · intro nm hnm
        exact hwf nm (by simpa using hnm)
      · intro d hd
        cases hd
    rw [drain_spec sh _ _ hwfit (le_refl _)]
    simp [specOf, specObj]
  | none =>
    simp only [scan, hbuf, Prod.mk.injEq, Option.some.injEq, true_and] at hscan
    obtain ⟨hsh, hit⟩ := hscan
    rw [← hit, ← hsh]
    rw [← hsh] at hwf
    have hfresh : heapGet { sh with heap := sh.heap ++ [[]] }
        sh.heap.length = [] := by
      simp only [heapGet]
      exact getD_concat_length sh.heap []
    have hwfit : objsWf { sh with heap := sh.heap ++ [[]] }
        ⟨table, sh.heap.length, 0,
        ((alookup tx.previous_actions table).getD [] ++
          (alookup tx.actions table).getD []).filterMap
          (fun a => a.add_dataobject.map (fun d => d.name)), 0, none, 0⟩ := by
      constructor
      · intro nm hnm
        exact hwf nm (by simpa using hnm)
      · intro d hd
        cases hd
    rw [drain_spec _ _ _ hwfit (le_refl _)]
    simp [specOf, specObj, hfresh]

theorem scan_yield_order_witness :
    drain w3sh ((specOf w3sh w3it).length + 1) w3it =
      (match alookup w3tx.unflushed_data "t" with
       | some ref => heapGet w3sh ref
       | none => []) ++
      (((alookup w3tx.previous_actions "t").getD [] ++
        (alookup w3tx.actions "t").getD []).filterMap
        (fun a => a.add_dataobject.map (fun d => d.name))).flatMap
        (objRows w3sh "t") :=
  scan_yield_order w3sh w3sh w3tx "t" w3it rfl (by
    intro name hname
    simp [w3tx, alookup] at hname
    subst hname
    exact ⟨⟨"t", "u", [Json.int 10, Json.int 11], 2⟩, rfl, rfl⟩)

/-- Claim C8 as amended: when the table's unflushed-buffer entry already
exists at cursor creation (some `write_row` has happened on it), the
cursor aliases that buffer, so a row appended by a later `write_row` that
does not trigger a flush is visible to that cursor: draining it yields
the extended buffer (the old rows, then the appended row) followed by the
table's data-object rows.  This covers any state of an open transaction,
whatever actions it has recorded. -/
theorem scan_cursor_aliases_existing_buffer (size : Nat) (sh sh2 : Shared)
    (tx : Transaction) (table : String) (row : Json) (ref : Nat)
    (cols : List String) (names : List String)
    (htab : alookup tx.tables table = some cols)
    (href : alookup tx.unflushed_data table = some ref)
    (hnames : names = ((alookup tx.previous_actions table).getD [] ++
        (alookup tx.actions table).getD []).filterMap
        (fun a => a.add_dataobject.map (fun d => d.name)))
    (hsh2 : sh2 = { sh with heap := sh.heap.set ref (heapGet sh ref ++ [row]) })
    (hlt : (heapGet sh ref).length + 1 < size)
    (hrefv : ref < sh.heap.length)
    (hwf : ∀ name ∈ names, wfObj sh2 table name) :
    scan sh (some tx) table =
      (none, sh, some ⟨table, ref, 0, names, 0, none, 0⟩) ∧
    write_row size sh (some tx) table row = (none, sh2, some tx) ∧
    drain sh2 ((specOf sh2 ⟨table, ref, 0, names, 0, none, 0⟩).length + 1)
        ⟨table, ref, 0, names, 0, none, 0⟩ =
      (heapGet sh ref ++ [row]) ++ names.flatMap (objRows sh2 table) := by
  have hg : heapGet sh2 ref = heapGet sh ref ++ [row] := by
    rw [hsh2]
    simp only [heapGet]
    exact getD_set_self sh.heap ref _ hrefv
  refine ⟨?_, ?_, ?_⟩
  · rw [hnames]
    simp [scan, href]
  · rw [hsh2]
    simp only [write_row, htab, Option.isNone_some, Bool.false_eq_true,
      if_false, href]
    simp [Nat.not_le.mpr hlt]
  · have hwfit : objsWf sh2 ⟨table, ref, 0, names, 0, none, 0⟩ := by
      constructor
      · intro nm hnm
        exact hwf nm (by simpa using hnm)
      · intro d hd
        cases hd
    rw [drain_spec sh2 _ _ hwfit (le_refl _)]
    simp [specOf, specObj, hg]

theorem scan_cursor_aliases_existing_buffer_witness :
    scan w7sh (some w8tx) "t" =
      (none, w7sh, some ⟨"t", 0, 0, [], 0, none, 0⟩) ∧
    write_row 65536 w7sh (some w8tx) "t" (Json.int 2) =
      (none, { w7sh with heap := w7sh.heap.set 0 (heapGet w7sh 0 ++ [Json.int 2]) },
       some w8tx) ∧
    drain { w7sh with heap := w7sh.heap.set 0 (heapGet w7sh 0 ++ [Json.int 2]) }
      ((specOf { w7sh with heap := w7sh.heap.set 0 (heapGet w7sh 0 ++ [Json.int 2]) }
        ⟨"t", 0, 0, [], 0, none, 0⟩).length + 1)
      ⟨"t", 0, 0, [], 0, none, 0⟩ =
      (heapGet w7sh 0 ++ [Json.int 2]) ++
      ([] : List String).flatMap (objRows
        { w7sh with heap := w7sh.heap.set 0 (heapGet w7sh 0 ++ [Json.int 2]) } "t") :=
  scan_cursor_aliases_existing_buffer 65536 w7sh
    { w7sh with heap := w7sh.heap.set 0 (heapGet w7sh 0 ++ [Json.int 2]) }
    w8tx "t" (Json.int 2) 0 ["a"] [] rfl rfl rfl rfl (by decide) (by decide)
    (by intro name h; cases h)

section InvariantLemmas

theorem blobNames_mono (sh sh2 : Shared) (ext : List (String × Json))
    (h : sh2.blobs = sh.blobs ++ ext) (r : String)
    (hr : r ∈ blobNames sh) : r ∈ blobNames sh2 := by
  rw [blobNames, h, List.map_append]
  exact List.mem_append_left _ hr

theorem TxRefsOk_mono (sh sh2 : Shared) (otx : Option Transaction)
    (ext : List (String × Json)) (h : sh2.blobs = sh.blobs ++ ext)
    (ho : TxRefsOk sh otx) : TxRefsOk sh2 otx := by
  intro tx htx p hp a ha d hd
  exact blobNames_mono sh sh2 ext h _ (ho tx htx p hp a ha d hd)

theorem TxRefsOk_none (sh : Shared) : TxRefsOk sh none :=
  fun _ htx => nomatch htx

theorem StoreInv_blobs_congr (sh sh2 : Shared) (h : sh2.blobs = sh.blobs)
    (hsi : StoreInv sh) : StoreInv sh2 := by
  intro p hp hl r hr
  rw [blobNames, h]
  exact hsi p (h ▸ hp) hl r hr

theorem StoreInv_snoc (sh sh2 : Shared) (nm : String) (v : Json)
    (h : sh2.blobs = sh.blobs ++ [(nm, v)])
    (hsi : StoreInv sh)
    (hnew : ∀ r ∈ logEntryRefs v, r ∈ blobNames sh2) : StoreInv sh2 := by
  intro p hp hl r hr
  rw [h] at hp
  rcases List.mem_append.mp hp with hpm | hpm
  · exact blobNames_mono sh sh2 _ h r (hsi p hpm hl r hr)
  · simp only [List.mem_singleton] at hpm
    subst hpm
    exact hnew r hr

theorem action_mem_appendEntry {α : Type} (m : List (String × List α))
    (k : String) (x : α) (p : String × List α) (hp : p ∈ appendEntry m k x)
    (a : α) (ha : a ∈ p.2) : (∃ q ∈ m, a ∈ q.2) ∨ a = x := by
  rcases mem_appendEntry m k x p hp with h | ⟨hk, hv⟩
  · exact Or.inl ⟨p, h, ha⟩
  · rw [hv] at ha
    rcases List.mem_append.mp ha with h1 | h1
    · cases hm : alookup m k with
      | none => rw [hm] at h1; cases h1
      | some l =>
        rw [hm] at h1
        exact Or.inl ⟨(k, l), alookup_mem _ _ _ hm, h1⟩
    · simp only [List.mem_singleton] at h1
      exact Or.inr h1

theorem logEntryRefs_dataobject (d : DataObject) :
    logEntryRefs (DataObject.to_dict d) = [] := rfl

theorem actionRefName_to_dict (a : Action) :
    actionRefName a.to_dict =
      a.add_dataobject.map (fun d => "_table_" ++ d.table ++ "_" ++ d.name) := by
  rcases a with ⟨ad, cm⟩
  cases ad with
  | some d =>
    simp [Action.to_dict, DataobjectAction.to_dict, actionRefName, jGet,
      alookup]
  | none =>
    cases cm with
    | some c =>
      simp [Action.to_dict, ChangeMetadataAction.to_dict, actionRefName,
        jGet, alookup]
    | none => simp [Action.to_dict, actionRefName, jGet, alookup]

theorem logEntryRefs_encode (tx : Transaction) :
    logEntryRefs (encodeLogEntry tx) =
      tx.actions.flatMap (fun p => p.2.filterMap
        (fun a => a.add_dataobject.map
          (fun d => "_table_" ++ d.table ++ "_" ++ d.name))) := by
  have h1 : jGet (encodeLogEntry tx) "Actions" =
      some (.obj (tx.actions.map
        (fun p => (p.1, Json.arr (p.2.map Action.to_dict))))) := rfl
  simp only [logEntryRefs, h1]
  rw [List.flatMap_map]
  congr 1
  funext p
  show (p.2.map Action.to_dict).filterMap actionRefName =
    p.2.filterMap (fun a => a.add_dataobject.map
      (fun d => "_table_" ++ d.table ++ "_" ++ d.name))
  rw [List.filterMap_map]
  congr 1
  funext a
  show actionRefName a.to_dict = _
  exact actionRefName_to_dict a

theorem replayActionList_actions (table : String) :
    ∀ (l : List Json) (tx tx' : Transaction),
      replayActionList table tx l = .ok tx' → tx'.actions = tx.actions := by
  intro l
  induction l with
  | nil =>
    intro tx tx' h
    simp only [replayActionList] at h
    cases h
    rfl
  | cons j rest ih =>
    intro tx tx' h
    simp only [replayActionList] at h
    by_cases ha : jHas j "AddDataobject"
    · rw [if_pos ha] at h
      cases hd : decodeAdd j with
      | none => simp only [hd] at h; cases h
      | some nt =>
        rcases nt with ⟨n, t⟩
        simp only [hd] at h
        rw [ih _ _ h]
    · rw [if_neg ha] at h
      by_cases hc : jHas j "ChangeMetadata"
      · rw [if_pos hc] at h
        cases hd : decodeChange j with
        | none => simp only [hd] at h; cases h
        | some tc =>
          rcases tc with ⟨t, cols⟩
          simp only [hd] at h
          rw [ih _ _ h]
      · rw [if_neg hc] at h
        cases h

theorem replayTables_actions :
    ∀ (items : List (String × Json)) (tx tx' : Transaction),
      replayTables tx items = .ok tx' → tx'.actions = tx.actions := by
  intro items
  induction items with
  | nil =>
    intro tx tx' h
    cases h
    rfl
  | cons p rest ih =>
    intro tx tx' h
    rcases p with ⟨t, v⟩
    simp only [replayTables] at h
    cases v with
    | arr l =>
      cases hra : replayActionList t tx l with
      | error e => simp only [hra] at h; cases h
      | ok tx1 =>
        simp only [hra] at h
        rw [ih _ _ h, replayActionList_actions t l tx tx1 hra]
    | str sv => cases h
    | int iv => cases h
    | obj ov => cases h

theorem replayLogEntry_actions (j : Json) (tx tx' : Transaction)
    (h : replayLogEntry j tx = .ok tx') : tx'.actions = tx.actions := by
  simp only [replayLogEntry] at h
  cases hj : jGet j "Actions" with
  | none => rw [hj] at h; cases h
  | some v =>
    rw [hj] at h
    cases v with
    | obj items => exact replayTables_actions items tx tx' h
    | str sv => cases h
    | int iv => cases h
    | arr av => cases h

theorem replayLogs_actions (sh : Shared) :
    ∀ (names : List String) (m0 : Nat) (tx : Transaction) (m1 : Nat)
      (tx' : Transaction),
      replayLogs sh names m0 tx = .ok (m1, tx') →
      tx'.actions = tx.actions := by
  intro names
  induction names with
  | nil =>
    intro m0 tx m1 tx' h
    cases h
    rfl
  | cons n rest ih =>
    intro m0 tx m1 tx' h
    simp only [replayLogs] at h
    cases hr : readBlob sh n with
    | none => simp only [hr] at h; cases h
    | some j =>
      simp only [hr] at h
      cases hid : jGet j "Id" with
      | none => simp only [hid] at h; cases h
      | some v =>
        simp only [hid] at h
        cases v with
        | int i =>
          cases hre : replayLogEntry j tx with
          | error e => simp only [hre] at h; cases h
          | ok tx1 =>
            simp only [hre] at h
            rw [ih _ _ _ _ h, replayLogEntry_actions j tx tx1 hre]
        | str sv => cases h
        | arr av => cases h
        | obj ov => cases h

end InvariantLemmas

section InvariantCore

theorem new_tx_core (sh : Shared) (otx : Option Transaction) (e : Option Err)
    (sh2 : Shared) (otx2 : Option Transaction)
    (h : new_tx sh otx = (e, sh2, otx2))
    (hsi : StoreInv sh) (htr : TxRefsOk sh otx) :
    StoreInv sh2 ∧ TxRefsOk sh2 otx2 ∧ ∃ ext, sh2.blobs = sh.blobs ++ ext := by
  cases otx with
  | some tx =>
    simp only [new_tx, Prod.mk.injEq] at h
    obtain ⟨he, hsh, ho⟩ := h
    subst hsh
    subst ho
    exact ⟨hsi, htr, [], by simp⟩
  | none =>
    simp only [new_tx] at h
    cases hrep : replayLogs sh (sortStrings (list_blobs sh "_log_"))
        0 emptyTx with
    | error e' =>
      simp only [hrep, Prod.mk.injEq] at h
      obtain ⟨he, hsh, ho⟩ := h
      subst hsh
      subst ho
      exact ⟨hsi, TxRefsOk_none sh, [], by simp⟩
    | ok p =>
      rcases p with ⟨m, tx⟩
      simp only [hrep, Prod.mk.injEq] at h
      obtain ⟨he, hsh, ho⟩ := h
      subst hsh
      subst ho
      have hact : tx.actions = [] := replayLogs_actions sh _ _ _ _ _ hrep
      refine ⟨hsi, ?_, [], by simp⟩
      intro tx'' htx'' p hp
      simp only [Option.some.injEq] at htx''
      rw [← htx''] at hp
      simp only at hp
      rw [hact] at hp
      cases hp

theorem create_table_core (sh : Shared) (otx : Option Transaction)
    (table : String) (cols : List String) (e : Option Err)
    (sh2 : Shared) (otx2 : Option Transaction)
    (h : create_table sh otx table cols = (e, sh2, otx2))
    (hsi : StoreInv sh) (htr : TxRefsOk sh otx) :
    StoreInv sh2 ∧ TxRefsOk sh2 otx2 ∧ ∃ ext, sh2.blobs = sh.blobs ++ ext := by
  cases otx with
  | none =>
    simp only [create_table, Prod.mk.injEq] at h
    obtain ⟨he, hsh, ho⟩ := h
    subst hsh
    subst ho
    exact ⟨hsi, htr, [], by simp⟩
  | some tx =>
    simp only [create_table] at h
    by_cases hex : (alookup tx.tables table).isSome
    · simp only [hex, if_true, Prod.mk.injEq] at h
      obtain ⟨he, hsh, ho⟩ := h
      subst hsh
      subst ho
      exact ⟨hsi, htr, [], by simp⟩
    · simp only [hex, Bool.false_eq_true, if_false, Prod.mk.injEq] at h
      obtain ⟨he, hsh, ho⟩ := h
      subst hsh
      subst ho
      refine ⟨hsi, ?_, [], by simp⟩
      intro tx'' htx'' p hp a ha d hd
      simp only [Option.some.injEq] at htx''
      rw [← htx''] at hp
      simp only at hp
      rcases action_mem_appendEntry _ _ _ p hp a ha with hold | hnew
      · obtain ⟨q, hq, haq⟩ := hold
        exact htr tx rfl q hq a haq d hd
      · rw [hnew] at hd
        cases hd

theorem flushCore_core (sh : Shared) (tx : Transaction) (t : String)
    (e : Option Err) (sh2 : Shared) (tx2 : Transaction)
    (h : flushCore sh tx t = (e, sh2, tx2))
    (hsi : StoreInv sh) (htr : TxRefsOk sh (some tx)) :
    StoreInv sh2 ∧ TxRefsOk sh2 (some tx2) ∧
    ∃ ext, sh2.blobs = sh.blobs ++ ext := by
  unfold flushCore at h
  cases href : alookup tx.unflushed_data t with
  | none =>
    rw [href] at h
    simp only [Prod.mk.injEq] at h
    obtain ⟨he, hsh, ho⟩ := h
    subst hsh
    subst ho
    exact ⟨hsi, htr, [], by simp⟩
  | some ref =>
    rw [href] at h
    by_cases hemp : (heapGet sh ref).isEmpty
    · simp only [hemp, if_true, Prod.mk.injEq] at h
      obtain ⟨he, hsh, ho⟩ := h
      subst hsh
      subst ho
      exact ⟨hsi, htr, [], by simp⟩
    · simp only [hemp, Bool.false_eq_true, if_false] at h
      cases hput : (put_if_absent (takeUuid sh).2
          ("_table_" ++ t ++ "_" ++ (takeUuid sh).1)
          (DataObject.to_dict
            ⟨t, (takeUuid sh).1, heapGet sh ref,
             (heapGet sh ref).length⟩)) with
      | mk e1 shp =>
        rw [hput] at h
        cases e1 with
        | some e' =>
          simp only [Prod.mk.injEq] at h
          obtain ⟨he, hsh, ho⟩ := h
          subst hsh
          subst ho
          have hps : shp = (takeUuid sh).2 := put_pair_err _ _ _ _ _ hput
          have hbl : shp.blobs = sh.blobs := by rw [hps, takeUuid_blobs]
          exact ⟨StoreInv_blobs_congr sh shp hbl hsi,
            TxRefsOk_mono sh shp _ [] (by rw [hbl]; simp) htr, [],
            by rw [hbl]; simp⟩
        | none =>
          simp only [Prod.mk.injEq] at h
          obtain ⟨he, hsh, ho⟩ := h
          subst hsh
          subst ho
          have hok := put_pair_ok _ _ _ _ hput
          have hbl : shp.blobs = sh.blobs ++
              [("_table_" ++ t ++ "_" ++ (takeUuid sh).1,
                DataObject.to_dict
                  ⟨t, (takeUuid sh).1, heapGet sh ref,
                   (heapGet sh ref).length⟩)] := by
            rw [hok]
            simp [takeUuid_blobs]
          have hbl2 : ({ shp with heap := shp.heap ++ [[]] } : Shared).blobs =
              sh.blobs ++
              [("_table_" ++ t ++ "_" ++ (takeUuid sh).1,
                DataObject.to_dict
                  ⟨t, (takeUuid sh).1, heapGet sh ref,
                   (heapGet sh ref).length⟩)] := hbl
          refine ⟨?_, ?_, _, hbl2⟩
          · refine StoreInv_snoc sh _ _ _ hbl2 hsi ?_
            intro r hr
            rw [logEntryRefs_dataobject] at hr
            cases hr
          · intro tx'' htx'' p hp a ha d hd
            simp only [Option.some.injEq] at htx''
            rw [← htx''] at hp
            simp only at hp
            rcases action_mem_appendEntry _ _ _ p hp a ha with hold | hnew
            · obtain ⟨q, hq, haq⟩ := hold
              exact blobNames_mono sh _ _ hbl2 _ (htr tx rfl q hq a haq d hd)
            · rw [hnew] at hd
              simp only [Option.some.injEq] at hd
              rw [← hd]
              show ("_table_" ++ t ++ "_" ++ (takeUuid sh).1) ∈
                blobNames { shp with heap := shp.heap ++ [[]] }
              rw [blobNames,
                show ({ shp with heap := shp.heap ++ [[]] } : Shared).blobs =
                  shp.blobs from rfl, hbl, List.map_append]
              exact List.mem_append_right _ (List.mem_singleton.mpr rfl)

theorem flush_rows_core (sh : Shared) (otx : Option Transaction) (t : String)
    (e : Option Err) (sh2 : Shared) (otx2 : Option Transaction)
    (h : flush_rows sh otx t = (e, sh2, otx2))
    (hsi : StoreInv sh) (htr : TxRefsOk sh otx) :
    StoreInv sh2 ∧ TxRefsOk sh2 otx2 ∧ ∃ ext, sh2.blobs = sh.blobs ++ ext := by
  cases otx with
  | none =>
    simp only [flush_rows, Prod.mk.injEq] at h
    obtain ⟨he, hsh, ho⟩ := h
    subst hsh
    subst ho
    exact ⟨hsi, htr, [], by simp⟩
  | some tx =>
    simp only [flush_rows] at h
    cases hfc : flushCore sh tx t with
    | mk e1 p =>
      rcases p with ⟨shf, txf⟩
      rw [hfc] at h
      simp only [Prod.mk.injEq] at h
      obtain ⟨he, hsh, ho⟩ := h
      subst hsh
      subst ho
      exact flushCore_core sh tx t e1 shf txf hfc hsi (htr)

theorem flushAll_core :
    ∀ (ts : List String) (sh : Shared) (tx : Transaction) (e : Option Err)
      (sh2 : Shared) (tx2 : Transaction),
      flushAll sh tx ts = (e, sh2, tx2) →
      StoreInv sh → TxRefsOk sh (some tx) →
      StoreInv sh2 ∧ TxRefsOk sh2 (some tx2) ∧
      ∃ ext, sh2.blobs = sh.blobs ++ ext := by
  intro ts
  induction ts with
  | nil =>
    intro sh tx e sh2 tx2 h hsi htr
    simp only [flushAll, Prod.mk.injEq] at h
    obtain ⟨he, hsh, ho⟩ := h
    subst hsh
    subst ho
    exact ⟨hsi, htr, [], by simp⟩
  | cons t rest ih =>
    intro sh tx e sh2 tx2 h hsi htr
    simp only [flushAll] at h
    cases hfc : flushCore sh tx t with
    | mk e1 p =>
      rcases p with ⟨shf, txf⟩
      rw [hfc] at h
      obtain ⟨hsi1, htr1, ext1, hext1⟩ :=
        flushCore_core sh tx t e1 shf txf hfc hsi htr
      cases e1 with
      | some e' =>
        simp only [Prod.mk.injEq] at h
        obtain ⟨he, hsh, ho⟩ := h
        subst hsh
        subst ho
        exact ⟨hsi1, htr1, ext1, hext1⟩
      | none =>
        obtain ⟨hsi2, htr2, ext2, hext2⟩ :=
          ih shf txf e sh2 tx2 h hsi1 htr1
        exact ⟨hsi2, htr2, ext1 ++ ext2, by rw [hext2, hext1, List.append_assoc]⟩

theorem write_row_core (size : Nat) (sh : Shared) (otx : Option Transaction)
    (table : String) (row : Json) (e : Option Err)
    (sh2 : Shared) (otx2 : Option Transaction)
    (h : write_row size sh otx table row = (e, sh2, otx2))
    (hsi : StoreInv sh) (htr : TxRefsOk sh otx) :
    StoreInv sh2 ∧ TxRefsOk sh2 otx2 ∧ ∃ ext, sh2.blobs = sh.blobs ++ ext := by
  cases otx with
  | none =>
    simp only [write_row, Prod.mk.injEq] at h
    obtain ⟨he, hsh, ho⟩ := h
    subst hsh
    subst ho
    exact ⟨hsi, htr, [], by simp⟩
  | some tx =>
    simp only [write_row] at h
    by_cases hni : (alookup tx.tables table).isNone
    · simp only [hni, if_true, Prod.mk.injEq] at h
      obtain ⟨he, hsh, ho⟩ := h
      subst hsh
      subst ho
      exact ⟨hsi, htr, [], by simp⟩
    · simp only [hni, Bool.false_eq_true, if_false] at h
      have htr' : ∀ (sha : Shared), sha.blobs = sh.blobs →
          ∀ (txa : Transaction), txa.actions = tx.actions →
          TxRefsOk sha (some txa) := by
        intro sha hba txa hta tx'' htx'' p hp a ha d hd
        simp only [Option.some.injEq] at htx''
        rw [← htx''] at hp
        rw [hta] at hp
        rw [blobNames, hba]
        exact htr tx rfl p hp a ha d hd
      cases href : alookup tx.unflushed_data table with
      | some ref =>
        rw [href] at h
        by_cases hsz : size ≤ (heapGet sh ref).length + 1
        · simp only [hsz, if_true] at h
          obtain ⟨hsi2, htr2, ext, hext⟩ := flush_rows_core _ _ _ _ _ _ h
            (StoreInv_blobs_congr sh _ rfl hsi) (htr' _ rfl tx rfl)
          exact ⟨hsi2, htr2, ext, hext⟩
        · simp only [hsz, if_false, Prod.mk.injEq] at h
          obtain ⟨he, hsh, ho⟩ := h
          subst hsh
          subst ho
          exact ⟨StoreInv_blobs_congr sh _ rfl hsi, htr' _ rfl tx rfl, [],
            by simp⟩
      | none =>
        rw [href] at h
        by_cases hsz : size ≤ 1
        · simp only [hsz, if_true] at h
          obtain ⟨hsi2, htr2, ext, hext⟩ := flush_rows_core _ _ _ _ _ _ h
            (StoreInv_blobs_congr sh _ rfl hsi) (htr' _ rfl _ rfl)
          exact ⟨hsi2, htr2, ext, hext⟩
        · simp only [hsz, if_false, Prod.mk.injEq] at h
          obtain ⟨he, hsh, ho⟩ := h
          subst hsh
          subst ho
          exact ⟨StoreInv_blobs_congr sh _ rfl hsi, htr' _ rfl _ rfl, [],
            by simp⟩

theorem commit_tx_core (sh : Shared) (otx : Option Transaction)
    (e : Option Err) (sh2 : Shared) (otx2 : Option Transaction)
    (h : commit_tx sh otx = (e, sh2, otx2))
    (hsi : StoreInv sh) (htr : TxRefsOk sh otx) :
    StoreInv sh2 ∧ TxRefsOk sh2 otx2 ∧ ∃ ext, sh2.blobs = sh.blobs ++ ext := by
  cases otx with
  | none =>
    simp only [commit_tx, Prod.mk.injEq] at h
    obtain ⟨he, hsh, ho⟩ := h
    subst hsh
    subst ho
    exact ⟨hsi, htr, [], by simp⟩
  | some tx =>
    simp only [commit_tx] at h
    cases hfa : flushAll sh tx (tx.tables.map Prod.fst) with
    | mk ef p =>
      rcases p with ⟨shf, txf⟩
      rw [hfa] at h
      obtain ⟨hsi1, htr1, ext1, hext1⟩ :=
        flushAll_core _ sh tx ef shf txf hfa hsi htr
      cases ef with
      | some e' =>
        simp only [Prod.mk.injEq] at h
        obtain ⟨he, hsh, ho⟩ := h
        subst hsh
        subst ho
        exact ⟨hsi1, htr1, ext1, hext1⟩
      | none =>
        by_cases hwr : txf.actions.all (fun p => p.2.isEmpty)
        · simp only [hwr, if_true, Prod.mk.injEq] at h
          obtain ⟨he, hsh, ho⟩ := h
          subst hsh
          subst ho
          exact ⟨hsi1, TxRefsOk_none shf, ext1, hext1⟩
        · simp only [hwr, Bool.false_eq_true, if_false] at h
          cases hput : put_if_absent shf (logName txf.id)
              (encodeLogEntry txf) with
          | mk e1 shp =>
            rw [hput] at h
            cases e1 with
            | none =>
              simp only [Prod.mk.injEq] at h
              obtain ⟨he, hsh, ho⟩ := h
              subst hsh
              subst ho
              have hok := put_pair_ok _ _ _ _ hput
              have hbl : shp.blobs = shf.blobs ++
                  [(logName txf.id, encodeLogEntry txf)] := by rw [hok]
              refine ⟨?_, TxRefsOk_none shp, ext1 ++
                [(logName txf.id, encodeLogEntry txf)],
                by rw [hbl, hext1, List.append_assoc]⟩
              refine StoreInv_snoc shf shp _ _ hbl hsi1 ?_
              intro r hr
              rw [logEntryRefs_encode] at hr
              obtain ⟨p, hp, hrp⟩ := List.mem_flatMap.mp hr
              obtain ⟨a, ha, hra⟩ := List.mem_filterMap.mp hrp
              obtain ⟨d, hd, hrd⟩ := Option.map_eq_some'.mp hra
              rw [← hrd]
              exact blobNames_mono shf shp _ hbl _
                (htr1 txf rfl p hp a ha d hd)
            | some e' =>
              have hps : shp = shf := put_pair_err _ _ _ _ _ hput
              subst hps
              cases e' with
              | alreadyExists nm =>
                simp only [Prod.mk.injEq] at h
                obtain ⟨he, hsh, ho⟩ := h
                subst hsh
                subst ho
                exact ⟨hsi1, TxRefsOk_none _, ext1, hext1⟩
              | storeOther m =>
                simp only [Prod.mk.injEq] at h
                obtain ⟨he, hsh, ho⟩ := h
                subst hsh
                subst ho
                exact ⟨hsi1, htr1, ext1, hext1⟩
              | existingTransaction =>
                simp only [Prod.mk.injEq] at h
                obtain ⟨he, hsh, ho⟩ := h
                subst hsh
                subst ho
                exact ⟨hsi1, htr1, ext1, hext1⟩
              | noTransaction =>
                simp only [Prod.mk.injEq] at h
                obtain ⟨he, hsh, ho⟩ := h
                subst hsh
                subst ho
                exact ⟨hsi1, htr1, ext1, hext1⟩
              | tableExists =>
                simp only [Prod.mk.injEq] at h
                obtain ⟨he, hsh, ho⟩ := h
                subst hsh
                subst ho
                exact ⟨hsi1, htr1, ext1, hext1⟩
              | noSuchTable =>
                simp only [Prod.mk.injEq] at h
                obtain ⟨he, hsh, ho⟩ := h
                subst hsh
                subst ho
                exact ⟨hsi1, htr1, ext1, hext1⟩
              | concurrentCommit =>
                simp only [Prod.mk.injEq] at h
                obtain ⟨he, hsh, ho⟩ := h
                subst hsh
                subst ho
                exact ⟨hsi1, htr1, ext1, hext1⟩
              | notFound nm =>
                simp only [Prod.mk.injEq] at h
                obtain ⟨he, hsh, ho⟩ := h
                subst hsh
                subst ho
                exact ⟨hsi1, htr1, ext1, hext1⟩
              | badData m =>
                simp only [Prod.mk.injEq] at h
                obtain ⟨he, hsh, ho⟩ := h
                subst hsh
                subst ho
                exact ⟨hsi1, htr1, ext1, hext1⟩

theorem scan_blobs (sh : Shared) (otx : Option Transaction) (t : String) :
    (scan sh otx t).2.1.blobs = sh.blobs := by
  cases otx with
  | none => rfl
  | some tx =>
    simp only [scan]
    cases href : alookup tx.unflushed_data t <;> simp [href]

end InvariantCore

section SysInvariant

theorem SysInv_update (s : SysState) (i : Nat) (sh2 : Shared)
    (otx2 : Option Transaction)
    (hsi2 : StoreInv sh2) (htr2 : TxRefsOk sh2 otx2)
    (ext : List (String × Json)) (hext : sh2.blobs = s.sh.blobs ++ ext)
    (h : SysInv s) :
    SysInv ⟨sh2, s.clients.set i otx2⟩ := by
  refine ⟨hsi2, ?_⟩
  intro otx'' hm
  rcases List.mem_or_eq_of_mem_set hm with hold | heq
  · exact TxRefsOk_mono _ _ _ ext hext (h.2 otx'' hold)
  · rw [heq]
    exact htr2

theorem applyOp_inv (size : Nat) (s : SysState) (o : Op) (h : SysInv s) :
    SysInv (applyOp size s o) := by
  cases o with
  | newTx i =>
    cases hg : s.clients[i]? with
    | none => simpa [applyOp, hg] using h
    | some otx =>
      cases hop : new_tx s.sh otx with
      | mk e rest =>
        rcases rest with ⟨sh2, otx2⟩
        simp only [applyOp, List.get?_eq_getElem?, hg, hop]
        obtain ⟨hsi2, htr2, ext, hext⟩ := new_tx_core s.sh otx e sh2 otx2 hop
          h.1 (h.2 otx (List.getElem?_mem hg))
        exact SysInv_update s i sh2 otx2 hsi2 htr2 ext hext h
  | createTable i t cols =>
    cases hg : s.clients[i]? with
    | none => simpa [applyOp, hg] using h
    | some otx =>
      cases hop : create_table s.sh otx t cols with
      | mk e rest =>
        rcases rest with ⟨sh2, otx2⟩
        simp only [applyOp, List.get?_eq_getElem?, hg, hop]
        obtain ⟨hsi2, htr2, ext, hext⟩ := create_table_core s.sh otx t cols e
          sh2 otx2 hop h.1 (h.2 otx (List.getElem?_mem hg))
        exact SysInv_update s i sh2 otx2 hsi2 htr2 ext hext h
  | writeRow i t r =>
    cases hg : s.clients[i]? with
    | none => simpa [applyOp, hg] using h
    | some otx =>
      cases hop : write_row size s.sh otx t r with
      | mk e rest =>
        rcases rest with ⟨sh2, otx2⟩
        simp only [applyOp, List.get?_eq_getElem?, hg, hop]
        obtain ⟨hsi2, htr2, ext, hext⟩ := write_row_core size s.sh otx t r e
          sh2 otx2 hop h.1 (h.2 otx (List.getElem?_mem hg))
        exact SysInv_update s i sh2 otx2 hsi2 htr2 ext hext h
  | flushOp i t =>
    cases hg : s.clients[i]? with
    | none => simpa [applyOp, hg] using h
    | some otx =>
      cases hop : flush_rows s.sh otx t with
      | mk e rest =>
        rcases rest with ⟨sh2, otx2⟩
        simp only [applyOp, List.get?_eq_getElem?, hg, hop]
        obtain ⟨hsi2, htr2, ext, hext⟩ := flush_rows_core s.sh otx t e
          sh2 otx2 hop h.1 (h.2 otx (List.getElem?_mem hg))
        exact SysInv_update s i sh2 otx2 hsi2 htr2 ext hext h
  | commitOp i =>
    cases hg : s.clients[i]? with
    | none => simpa [applyOp, hg] using h
    | some otx =>
      cases hop : commit_tx s.sh otx with
      | mk e rest =>
        rcases rest with ⟨sh2, otx2⟩
        simp only [applyOp, List.get?_eq_getElem?, hg, hop]
        obtain ⟨hsi2, htr2, ext, hext⟩ := commit_tx_core s.sh otx e
          sh2 otx2 hop h.1 (h.2 otx (List.getElem?_mem hg))
        exact SysInv_update s i sh2 otx2 hsi2 htr2 ext hext h
  | scanOp i t =>
    cases hg : s.clients[i]? with
    | none => simpa [applyOp, hg] using h
    | some otx =>
      cases hop : scan s.sh otx t with
      | mk e rest =>
        rcases rest with ⟨sh2, oit⟩
        simp only [applyOp, List.get?_eq_getElem?, hg, hop]
        have hbl : sh2.blobs = s.sh.blobs := by
          have := scan_blobs s.sh otx t
          rw [hop] at this
          exact this
        refine ⟨StoreInv_blobs_congr s.sh sh2 hbl h.1, ?_⟩
        intro otx'' hm
        exact TxRefsOk_mono _ _ _ [] (by rw [hbl]; simp) (h.2 otx'' hm)

theorem runOps_inv (size : Nat) :
    ∀ (ops : List Op) (s : SysState), SysInv s → SysInv (runOps size s ops) := by
  intro ops
  induction ops with
  | nil => exact fun s h => h
  | cons o rest ih =>
    intro s h
    exact ih (applyOp size s o) (applyOp_inv size s o h)

theorem initSys_inv (uuids : List String) (faults : List (String × String))
    (n : Nat) : SysInv (initSys uuids faults n) := by
  constructor
  · intro p hp
    cases hp
  · intro otx hm
    have : otx = none := List.eq_of_mem_replicate hm
    rw [this]
    exact TxRefsOk_none _

end SysInvariant

/-- Claim C2: in every store state reachable by runs of the client
operations from an empty store, every committed log entry's
`AddDataobject` actions refer to data-object blobs that exist in the
store: `commit_tx` flushes (writes) every referenced blob before the log
entry that references it. -/
theorem committed_log_refs_exist (size : Nat) (uuids : List String)
    (faults : List (String × String)) (n : Nat) (ops : List Op)
    (p : String × Json)
    (hp : p ∈ (runOps size (initSys uuids faults n) ops).sh.blobs)
    (hlog : strStartsWith p.1 "_log_" = true)
    (r : String) (hr : r ∈ logEntryRefs p.2) :
    r ∈ blobNames (runOps size (initSys uuids faults n) ops).sh :=
  (runOps_inv size ops (initSys uuids faults n)
    (initSys_inv uuids faults n)).1 p hp hlog r hr

theorem committed_log_refs_exist_witness :
    "_table_x_u1" ∈ blobNames (runOps 4 (initSys ["u1"] [] 1) w2ops).sh :=
  committed_log_refs_exist 4 ["u1"] [] 1 w2ops
    ("_log_00000000000000000001", w2log)
    (List.mem_cons_of_mem _ (List.mem_cons_self _ _)) rfl
    "_table_x_u1" (List.mem_cons_self _ _)

end Pydl




